import Mathlib

/-!
Verification development for a Bencode codec (Go package `bencode`).

The development shallowly embeds the package's decode core:
* the byte-at-a-time lexical scanner (`scan.go`-style state machine:
  `sv`, `sd`, `sl`, `si`, ..., `checkValid`, `Valid`),
* the field-resolution algorithm of `encode.go` (`typeFields`,
  `dominantField`),
* the decode binder of `decode.go` (`decodeState`, `value`, `dictionary`,
  `list`, `integerStore`, `stringStore`, `Unmarshal`),
* the streaming decoder of `stream.go` (`Decoder.Decode`, `readValue`,
  `refill`).

Bytes are modelled as `Nat` (the value of the Go `byte`), byte slices as
`List Nat`.  Go functions that mutate a receiver become functions from the
receiver state to the updated state.  The scanner's `parseState` stack is
stored top-first (Go appends at the end and pops from the end; only the
push/pop discipline is observable).  Places where the Go code panics
(internal-consistency faults, all unreachable from the exported entry
points) are modelled by a distinguished `panicErr` error value.
-/

namespace Bencode

/-- Opcodes returned by the scanner's step functions (the `scanContinue`,
`scanBeginDictionary`, ... constants of the source). -/
inductive Op where
  | scanContinue
  | scanBeginDictionary
  | scanEndDictionary
  | scanBeginList
  | scanEndList
  | scanBeginInteger
  | scanInteger
  | scanEndInteger
  | scanBeginString
  | scanString
  | scanEnd
  | scanError
deriving DecidableEq, Repr

/-- Parse-stack entries (the `parseDictionaryKey`, ... constants). -/
inductive PState where
  | parseDictionaryKey
  | parseDictionaryValue
  | parseListValue
  | parseInteger
  | parseStringLength
  | parseString
deriving DecidableEq, Repr

/-- The scanner's current step function, modelled as an enumerated state
(the source stores the Go function pointer itself in `s.step`). -/
inductive SStep where
  | sv | sd | sl | si | sin | si0 | sil
  | ssl0 | ssl | ssf | ss | se
  | stateError | stateEndTop
deriving DecidableEq, Repr

/-- Errors held in `scanner.err`.  `synErr` is the source's `SyntaxError`
(message, byte offset); `numErr` models the `strconv.ParseUint` error kept
by `ssle`; `panicErr` marks states at which the Go code would panic. -/
inductive SErr where
  | synErr (msg : String) (offset : Nat)
  | numErr (msg : String)
  | panicErr (msg : String)
deriving DecidableEq, Repr

/-- The `scanner` struct.  `parseState` is kept top-first.  `string` is the
remaining-byte counter of a string body, `digits` the pending digit
accumulator of a string length. -/
structure Scanner where
  step : SStep
  parseState : List PState
  endTop : Bool
  err : Option SErr
  bytes : Nat
  string : Nat
  digits : List Nat
deriving DecidableEq, Repr

/-- The zero `scanner{}` value. -/
def zeroScanner : Scanner :=
  { step := .sv, parseState := [], endTop := false, err := none
    bytes := 0, string := 0, digits := [] }

/-- Message of the source's `phasePanicMsg` constant. -/
def phasePanicMsg : String := "Bencode decoder out of sync - data changing underfoot?"

/-- The source's `(*scanner).reset`: note that it does not clear `bytes`
nor `string`. -/
def Scanner.reset (s : Scanner) : Scanner :=
  { s with
    step := .sv
    parseState := []
    err := none
    endTop := false
    digits := [] }

/-- Printable-ASCII test used when modelling `strconv.Quote`. -/
def printableASCII (c : Nat) : Bool := 0x20 ≤ c && c ≤ 0x7e

/-- Hex digit for the escape forms of `strconv.Quote`. -/
def hexDigit (n : Nat) : Char :=
  if n < 10 then Char.ofNat ('0'.toNat + n) else Char.ofNat ('a'.toNat + n - 10)

/-- Model of `strconv.Quote (string c)` without the surrounding quotes, for
one byte `c` (only the error-message text depends on this). -/
def goQuoteInner (c : Nat) : String :=
  if c = '\\'.toNat then "\\\\"
  else if c = 7 then "\\a"
  else if c = 8 then "\\b"
  else if c = 9 then "\\t"
  else if c = 10 then "\\n"
  else if c = 11 then "\\v"
  else if c = 12 then "\\f"
  else if c = 13 then "\\r"
  else if printableASCII c then String.mk [Char.ofNat c]
  else if c < 0x20 || c = 0x7f then
    String.mk ['\\', 'x', hexDigit (c / 16), hexDigit (c % 16)]
  else if (0xa1 ≤ c && c ≠ 0xad) then String.mk [Char.ofNat c]
  else String.mk ['\\', 'u', '0', '0', hexDigit (c / 16), hexDigit (c % 16)]

/-- The source's `quoteChar`. -/
def quoteChar (c : Nat) : String :=
  if c = '\''.toNat then "'\\''"
  else if c = '"'.toNat then "'\"'"
  else "'" ++ goQuoteInner c ++ "'"

/-- The source's `(*scanner).error`: latch the sticky error and move to the
terminal error state. -/
def Scanner.error (s : Scanner) (c : Nat) (context : String) : Scanner × Op :=
  ({ s with
     step := .stateError
     err := some (.synErr ("invalid character " ++ quoteChar c ++ " " ++ context) s.bytes) },
   .scanError)

/-- The source's `pushParseState`. -/
def Scanner.pushParseState (s : Scanner) (p : PState) : Scanner :=
  { s with parseState := p :: s.parseState }

/-- The source's `popParseState`: drop the top frame; if the stack became
empty the top-level value is complete (`stateEndTop`), otherwise resume at
`se`.  Popping an empty stack would panic in Go (slice bound violation);
that case is modelled by the `panicErr` latch. -/
def Scanner.popParseState (s : Scanner) : Scanner :=
  match s.parseState with
  | [] => { s with step := .stateError, err := some (.panicErr "popParseState on empty stack") }
  | _ :: rest =>
    if rest.isEmpty then
      { s with parseState := rest, step := .stateEndTop, endTop := true }
    else
      { s with parseState := rest, step := .se }

/-- Numeric value of the accumulated decimal digit bytes (each is an ASCII
digit by construction), as computed by `strconv.ParseUint(·, 10, 64)`. -/
def digitsVal (ds : List Nat) : Nat :=
  ds.foldl (fun a d => a * 10 + (d - '0'.toNat)) 0

/-- The source's `ssle`: terminate a string length.  `ParseUint` of the
digit run (64-bit: values above `2^64 - 1` are a range error); a zero
length closes the string token immediately.  Go panics if `s.string` is
not zero here. -/
def ssle (s : Scanner) (_c : Nat) : Scanner × Op :=
  if s.string = 0 then
    let n := digitsVal s.digits
    let ok := s.digits ≠ [] && n < 2 ^ 64
    let s := { s with digits := [] }
    if ok then
      let s := { s with
                 string := n
                 parseState := match s.parseState with
                   | [] => []
                   | _ :: rest => PState.parseString :: rest
                 step := .ssf }
      if n = 0 then (s.popParseState, .scanString)
      else (s, .scanContinue)
    else
      ({ s with
         err := some (.numErr "strconv.ParseUint: value out of range")
         step := .stateError }, .scanError)
  else
    ({ s with err := some (.panicErr phasePanicMsg), step := .stateError }, .scanError)

/-- The source's `sv`: dispatch on the first byte of a value. -/
def sv (s : Scanner) (c : Nat) : Scanner × Op :=
  if c = 'd'.toNat then
    ({ s with step := .sd }.pushParseState .parseDictionaryKey, .scanBeginDictionary)
  else if c = 'l'.toNat then
    ({ s with step := .sl }.pushParseState .parseListValue, .scanBeginList)
  else if c = 'i'.toNat then
    ({ s with step := .si }.pushParseState .parseInteger, .scanBeginInteger)
  else if c = '0'.toNat then
    ({ { s with step := .ssl0 }.pushParseState .parseStringLength with
       digits := s.digits ++ [c] }, .scanBeginString)
  else if '1'.toNat ≤ c && c ≤ '9'.toNat then
    ({ { s with step := .ssl }.pushParseState .parseStringLength with
       digits := s.digits ++ [c] }, .scanBeginString)
  else s.error c "looking for value"

/-- The source's `sd`: inside a dictionary, expecting a key (or close). -/
def sd (s : Scanner) (c : Nat) : Scanner × Op :=
  if c = 'e'.toNat then (s.popParseState, .scanEndDictionary)
  else if c = '0'.toNat then
    ({ { s with step := .ssl0 }.pushParseState .parseStringLength with
       digits := s.digits ++ [c] }, .scanBeginString)
  else if '1'.toNat ≤ c && c ≤ '9'.toNat then
    ({ { s with step := .ssl }.pushParseState .parseStringLength with
       digits := s.digits ++ [c] }, .scanBeginString)
  else s.error c "looking for string length"

/-- The source's `sl`: inside a list, expecting a value (or close). -/
def sl (s : Scanner) (c : Nat) : Scanner × Op :=
  if c = 'e'.toNat then (s.popParseState, .scanEndList)
  else sv s c

/-- The source's `ssl0`: a string length that began with `0` must be
terminated immediately. -/
def ssl0 (s : Scanner) (c : Nat) : Scanner × Op :=
  if c = ':'.toNat then ssle s c
  else s.error c "looking for string length delimiter"

/-- The source's `ssl`: string-length digits. -/
def ssl (s : Scanner) (c : Nat) : Scanner × Op :=
  if c = ':'.toNat then ssle s c
  else if '0'.toNat ≤ c && c ≤ '9'.toNat then
    ({ s with digits := s.digits ++ [c] }, .scanContinue)
  else s.error c "looking for string length digit"

/-- The source's `ssf`: first byte of a string body. -/
def ssf (s : Scanner) (_c : Nat) : Scanner × Op :=
  let s := { s with string := s.string - 1 }
  if s.string = 0 then (s.popParseState, .scanString)
  else ({ s with step := .ss }, .scanString)

/-- The source's `ss`: subsequent bytes of a string body. -/
def ss (s : Scanner) (_c : Nat) : Scanner × Op :=
  let s := { s with string := s.string - 1 }
  if s.string = 0 then (s.popParseState, .scanContinue)
  else (s, .scanContinue)

/-- The source's `si`: first byte after `i`. -/
def si (s : Scanner) (c : Nat) : Scanner × Op :=
  if c = '-'.toNat then ({ s with step := .sin }, .scanInteger)
  else if c = '0'.toNat then ({ s with step := .si0 }, .scanInteger)
  else if '1'.toNat ≤ c && c ≤ '9'.toNat then ({ s with step := .sil }, .scanInteger)
  else s.error c "looking for integer"

/-- The source's `sin`: first byte after `i-`. -/
def sin (s : Scanner) (c : Nat) : Scanner × Op :=
  if c = '0'.toNat then s.error c "negative zero not allowed"
  else if '1'.toNat ≤ c && c ≤ '9'.toNat then ({ s with step := .sil }, .scanContinue)
  else s.error c "looking for integer"

/-- The source's `si0`: after `i0` only `e` is legal. -/
def si0 (s : Scanner) (c : Nat) : Scanner × Op :=
  if c = 'e'.toNat then (s.popParseState, .scanEndInteger)
  else s.error c "leading zeroes not allowed"

/-- The source's `sil`: inside an integer's digit run. -/
def sil (s : Scanner) (c : Nat) : Scanner × Op :=
  if c = 'e'.toNat then (s.popParseState, .scanEndInteger)
  else if '0'.toNat ≤ c && c ≤ '9'.toNat then (s, .scanContinue)
  else s.error c "looking for integer"

/-- The source's `se`: a value just ended; resume the parent frame.  Go
panics on a `parseString` top frame. -/
def se (s : Scanner) (c : Nat) : Scanner × Op :=
  match s.parseState with
  | [] => ({ s with step := .stateEndTop, endTop := true }, .scanEnd)
  | p :: rest =>
    match p with
    | .parseString =>
      ({ s with err := some (.panicErr phasePanicMsg), step := .stateError }, .scanError)
    | .parseDictionaryKey => sv { s with parseState := PState.parseDictionaryValue :: rest } c
    | .parseDictionaryValue => sd { s with parseState := PState.parseDictionaryKey :: rest } c
    | .parseListValue => sl s c
    | _ => s.error c "DNE"

/-- The source's `stateError`: terminal, absorbing. -/
def stateError (s : Scanner) (_c : Nat) : Scanner × Op := (s, .scanError)

/-- The source's `stateEndTop`: the single top-level value is complete;
every further byte is answered with `scanEnd`. -/
def stateEndTop (s : Scanner) (_c : Nat) : Scanner × Op := (s, .scanEnd)

/-- One byte step of the scanner: dispatch `s.step(s, c)` on the stored
step function. -/
def scanStep (s : Scanner) (c : Nat) : Scanner × Op :=
  match s.step with
  | .sv => sv s c
  | .sd => sd s c
  | .sl => sl s c
  | .si => si s c
  | .sin => sin s c
  | .si0 => si0 s c
  | .sil => sil s c
  | .ssl0 => ssl0 s c
  | .ssl => ssl s c
  | .ssf => ssf s c
  | .ss => ss s c
  | .se => se s c
  | .stateError => stateError s c
  | .stateEndTop => stateEndTop s c

/-- The source's `(*scanner).eof`. -/
def Scanner.eof (s : Scanner) : Scanner × Op :=
  if s.err.isSome then (s, .scanError)
  else if s.endTop then (s, .scanEnd)
  else ({ s with err := some (.synErr "unexpected end of Bencode input" s.bytes) },
        .scanError)

/-- Loop body of the source's `checkValid`: step each byte (incrementing
the byte counter first), aborting with the sticky error on `scanError`,
and finish with `eof`.  (`scanStep` and `eof` are pure, so writing their
one evaluation as two projections is the same computation.) -/
def checkValidLoop : Scanner → List Nat → Option SErr
  | s, [] =>
    if (s.eof).2 = .scanError then (s.eof).1.err else none
  | s, c :: cs =>
    if (scanStep { s with bytes := s.bytes + 1 } c).2 = .scanError then
      (scanStep { s with bytes := s.bytes + 1 } c).1.err
    else checkValidLoop (scanStep { s with bytes := s.bytes + 1 } c).1 cs

/-- The source's `checkValid(data, scan)`: reset the scanner, then run the
loop. -/
def checkValid (data : List Nat) (s : Scanner) : Option SErr :=
  checkValidLoop s.reset data

/-- The source's exported `Valid`. -/
def Valid (data : List Nat) : Bool :=
  (checkValid data zeroScanner).isNone

/-- Byte sequence of an ASCII string literal. -/
def bytes (s : String) : List Nat := s.data.map Char.toNat

/-- Run the scanner over a byte sequence from a given state, as the loop
of `checkValid` does (byte counter incremented before each step), but
without the early abort: the error state is absorbing, so the final state
only differs from the aborting loop's in the byte counter. -/
def runScan : Scanner → List Nat → Scanner
  | s, [] => s
  | s, c :: cs => runScan (scanStep { s with bytes := s.bytes + 1 } c).1 cs

/-- Step-function-indexed part of the scanner's reachability invariant:
what the stack, the digit accumulator and the remaining-string counter
look like in each state. -/
def StepInv (s : Scanner) : Prop :=
  match s.step with
  | .sv => s.parseState = [] ∧ s.digits = [] ∧ s.string = 0
  | .sd | .sl | .si | .sin | .si0 | .sil | .se =>
      s.parseState ≠ [] ∧ s.digits = [] ∧ s.string = 0
  | .ssl0 => s.digits = ['0'.toNat] ∧ s.string = 0 ∧
      ∃ rest, s.parseState = PState.parseStringLength :: rest
  | .ssl => (∃ d ds, s.digits = d :: ds ∧ '1'.toNat ≤ d ∧ d ≤ '9'.toNat) ∧
      s.string = 0 ∧ ∃ rest, s.parseState = PState.parseStringLength :: rest
  | .ssf | .ss => 1 ≤ s.string ∧ s.digits = [] ∧
      ∃ rest, s.parseState = PState.parseString :: rest
  | .stateError => True
  | .stateEndTop => s.parseState = [] ∧ s.digits = [] ∧ s.string = 0

/-- Reachability invariant of the scanner: the sticky error is set exactly
in the terminal error state, the `endTop` latch is set exactly in the
`stateEndTop` state, and the state-indexed stack/accumulator conditions
hold. -/
def Inv (s : Scanner) : Prop :=
  (s.err.isSome ↔ s.step = .stateError) ∧
  (s.endTop = true ↔ s.step = .stateEndTop) ∧
  StepInv s

theorem inv_zeroReset : Inv (zeroScanner.reset) := by
  constructor
  · simp [zeroScanner, Scanner.reset]
  constructor
  · simp [zeroScanner, Scanner.reset]
  · simp [StepInv, zeroScanner, Scanner.reset]

/-- C1: the pure validator returns exactly the listed boolean on every
input of the spec's grammar-conformance table: `d` invalid, `de` valid,
`le` valid, `i0e` valid, `i-0e` invalid, `i01e` invalid, `0:` valid,
`1:` invalid, `1:a` valid, `d3:fooi0ee` valid, `d3:fooe` invalid,
`d0:0:e` valid, `llleee` valid, `ld0:0:e0:e` valid. -/
theorem C1_validator_conformance :
    Valid (bytes "d") = false ∧
    Valid (bytes "de") = true ∧
    Valid (bytes "le") = true ∧
    Valid (bytes "i0e") = true ∧
    Valid (bytes "i-0e") = false ∧
    Valid (bytes "i01e") = false ∧
    Valid (bytes "0:") = true ∧
    Valid (bytes "1:") = false ∧
    Valid (bytes "1:a") = true ∧
    Valid (bytes "d3:fooi0ee") = true ∧
    Valid (bytes "d3:fooe") = false ∧
    Valid (bytes "d0:0:e") = true ∧
    Valid (bytes "llleee") = true ∧
    Valid (bytes "ld0:0:e0:e") = true := by
  decide


theorem digitsVal_aux_ge (ds : List Nat) (a : Nat) (h : 1 ≤ a) :
    1 ≤ ds.foldl (fun a d => a * 10 + (d - '0'.toNat)) a := by
  induction ds generalizing a with
  | nil => simpa using h
  | cons d ds ih =>
    simp only [List.foldl_cons]
    exact ih _ (by omega)

theorem digitsVal_cons_pos (d : Nat) (ds : List Nat) (h : '1'.toNat ≤ d) :
    1 ≤ digitsVal (d :: ds) := by
  have h0 : '0'.toNat = 48 := by decide
  have h1 : '1'.toNat = 49 := by decide
  refine digitsVal_aux_ge ds (0 * 10 + (d - '0'.toNat)) ?_
  omega

set_option maxHeartbeats 1600000 in
theorem inv_scanStep (s : Scanner) (c : Nat) (h : Inv s) : Inv (scanStep s c).1 := by
  obtain ⟨h1, h2, h3⟩ := h
  cases hs : s.step <;> simp only [StepInv, hs] at h3 <;> rw [hs] at h1 h2 <;>
    simp only [scanStep, hs]
  case sv =>
    obtain ⟨hp, hd, hstr⟩ := h3
    unfold sv
    split_ifs <;> simp_all [Inv, StepInv, Scanner.pushParseState, Scanner.error]
  case sd =>
    obtain ⟨hp, hd, hstr⟩ := h3
    unfold sd
    split_ifs <;>
      simp_all [Inv, StepInv, Scanner.pushParseState, Scanner.error, Scanner.popParseState]
    · rcases hq : s.parseState with _ | ⟨p, rest⟩ <;> simp_all [Inv, StepInv]
      rcases rest with _ | ⟨q, rest'⟩ <;> simp_all [Inv, StepInv]
  case sl =>
    obtain ⟨hp, hd, hstr⟩ := h3
    unfold sl
    split_ifs <;> try (unfold sv; split_ifs <;>
      simp_all [Inv, StepInv, Scanner.pushParseState, Scanner.error])
    · rcases hq : s.parseState with _ | ⟨p, rest⟩ <;>
        simp_all [Inv, StepInv, Scanner.popParseState]
      rcases rest with _ | ⟨q, rest'⟩ <;> simp_all [Inv, StepInv]
  case si =>
    obtain ⟨hp, hd, hstr⟩ := h3
    unfold si
    split_ifs <;> simp_all [Inv, StepInv, Scanner.error]
  case sin =>
    obtain ⟨hp, hd, hstr⟩ := h3
    unfold sin
    split_ifs <;> simp_all [Inv, StepInv, Scanner.error]
  case si0 =>
    obtain ⟨hp, hd, hstr⟩ := h3
    unfold si0
    split_ifs <;> simp_all [Inv, StepInv, Scanner.error]
    · rcases hq : s.parseState with _ | ⟨p, rest⟩ <;>
        simp_all [Inv, StepInv, Scanner.popParseState]
      rcases rest with _ | ⟨q, rest'⟩ <;> simp_all [Inv, StepInv]
  case sil =>
    obtain ⟨hp, hd, hstr⟩ := h3
    unfold sil
    split_ifs <;> simp_all [Inv, StepInv, Scanner.error]
    · rcases hq : s.parseState with _ | ⟨p, rest⟩ <;>
        simp_all [Inv, StepInv, Scanner.popParseState]
      rcases rest with _ | ⟨q, rest'⟩ <;> simp_all [Inv, StepInv]
  case ssl0 =>
    obtain ⟨hd, hstr, rest, hq⟩ := h3
    unfold ssl0 ssle
    split_ifs <;>
      simp_all [Inv, StepInv, Scanner.error, Scanner.popParseState, digitsVal] <;>
    rcases rest with _ | ⟨q, rest'⟩ <;> simp_all [Inv, StepInv]
  case ssl =>
    obtain ⟨⟨d, ds, hd, hd1, hd9⟩, hstr, rest, hq⟩ := h3
    unfold ssl ssle
    have hpos := digitsVal_cons_pos d ds hd1
    split_ifs <;>
      simp_all [Inv, StepInv, Scanner.error, Scanner.popParseState]
    · split_ifs <;> simp_all [Inv, StepInv]
  case ssf =>
    obtain ⟨hstr, hd, rest, hq⟩ := h3
    unfold ssf
    dsimp only
    split_ifs with h0
    · rcases rest with _ | ⟨q, rest'⟩ <;>
        simp_all [Inv, StepInv, Scanner.popParseState]
    · simp_all [Inv, StepInv]
      omega
  case ss =>
    obtain ⟨hstr, hd, rest, hq⟩ := h3
    unfold ss
    dsimp only
    split_ifs with h0
    · rcases rest with _ | ⟨q, rest'⟩ <;>
        simp_all [Inv, StepInv, Scanner.popParseState]
    · simp_all [Inv, StepInv]
      omega
  case se =>
    obtain ⟨hp, hd, hstr⟩ := h3
    unfold se
    rcases hq : s.parseState with _ | ⟨p, rest⟩
    · simp_all
    · cases p
      case parseString => simp_all [Inv, StepInv]
      case parseDictionaryKey =>
        unfold sv
        split_ifs <;>
          simp_all [Inv, StepInv, Scanner.pushParseState, Scanner.error]
      case parseDictionaryValue =>
        unfold sd
        split_ifs <;>
          simp_all [Inv, StepInv, Scanner.pushParseState, Scanner.error,
            Scanner.popParseState] <;>
        rcases rest with _ | ⟨q, rest'⟩ <;> simp_all [Inv, StepInv]
      case parseListValue =>
        unfold sl sv
        split_ifs <;>
          simp_all [Inv, StepInv, Scanner.pushParseState, Scanner.error,
            Scanner.popParseState] <;>
        rcases rest with _ | ⟨q, rest'⟩ <;> simp_all [Inv, StepInv]
      case parseInteger => simp_all [Inv, StepInv, Scanner.error]
      case parseStringLength => simp_all [Inv, StepInv, Scanner.error]
  case stateError => simp_all [Inv, StepInv, stateError]
  case stateEndTop => simp_all [Inv, StepInv, stateEndTop]



/-- Per-transition facts about one scanner step from a state satisfying
the reachability invariant: an aborting step has latched the sticky error,
and on error-free steps the frame stack is pushed exactly on the four
begin opcodes, popped exactly on the three end opcodes or at a string
token's matching close, changes by at most one frame, and is empty exactly
when the `endTop` latch is set. -/
def StepFacts (s : Scanner) (c : Nat) : Prop :=
  ((scanStep s c).2 = .scanError → (scanStep s c).1.err.isSome) ∧
  ((scanStep s c).1.err = none →
    (((scanStep s c).1.parseState.length = s.parseState.length + 1 ↔
        ((scanStep s c).2 = .scanBeginDictionary ∨ (scanStep s c).2 = .scanBeginList ∨
         (scanStep s c).2 = .scanBeginInteger ∨ (scanStep s c).2 = .scanBeginString)) ∧
     (s.parseState.length = (scanStep s c).1.parseState.length + 1 ↔
        ((scanStep s c).2 = .scanEndDictionary ∨ (scanStep s c).2 = .scanEndList ∨
         (scanStep s c).2 = .scanEndInteger ∨
         (s.step = .ssl0 ∧ c = ':'.toNat) ∨
         ((s.step = .ssf ∨ s.step = .ss) ∧ s.string = 1))) ∧
     ((scanStep s c).1.parseState.length = s.parseState.length ∨
      (scanStep s c).1.parseState.length = s.parseState.length + 1 ∨
      s.parseState.length = (scanStep s c).1.parseState.length + 1) ∧
     ((scanStep s c).1.parseState = [] ↔ (scanStep s c).1.endTop = true)))

set_option maxHeartbeats 3200000 in
theorem scanStep_facts (s : Scanner) (c : Nat) (h : Inv s) : StepFacts s c := by
  obtain ⟨h1, h2, h3⟩ := h
  unfold StepFacts
  cases hs : s.step <;> simp only [StepInv, hs] at h3 <;> rw [hs] at h1 h2 <;>
    simp only [scanStep, hs]
  case sv =>
    obtain ⟨hp, hd, hstr⟩ := h3
    unfold sv
    split_ifs <;> simp_all [Scanner.pushParseState, Scanner.error]
  case sd =>
    obtain ⟨hp, hd, hstr⟩ := h3
    unfold sd
    rcases hq : s.parseState with _ | ⟨p, rest⟩
    · simp_all
    split_ifs <;>
      simp_all [Scanner.pushParseState, Scanner.error, Scanner.popParseState] <;>
    rcases rest with _ | ⟨q, rest'⟩ <;> simp_all
  case sl =>
    obtain ⟨hp, hd, hstr⟩ := h3
    unfold sl sv
    rcases hq : s.parseState with _ | ⟨p, rest⟩
    · simp_all
    split_ifs <;>
      simp_all [Scanner.pushParseState, Scanner.error, Scanner.popParseState] <;>
    rcases rest with _ | ⟨q, rest'⟩ <;> simp_all
  case si =>
    obtain ⟨hp, hd, hstr⟩ := h3
    unfold si
    split_ifs <;> simp_all [Scanner.error]
  case sin =>
    obtain ⟨hp, hd, hstr⟩ := h3
    unfold sin
    split_ifs <;> simp_all [Scanner.error]
  case si0 =>
    obtain ⟨hp, hd, hstr⟩ := h3
    unfold si0
    rcases hq : s.parseState with _ | ⟨p, rest⟩
    · simp_all
    split_ifs <;>
      simp_all [Scanner.error, Scanner.popParseState] <;>
    rcases rest with _ | ⟨q, rest'⟩ <;> simp_all
  case sil =>
    obtain ⟨hp, hd, hstr⟩ := h3
    unfold sil
    rcases hq : s.parseState with _ | ⟨p, rest⟩
    · simp_all
    split_ifs <;>
      simp_all [Scanner.error, Scanner.popParseState] <;>
    rcases rest with _ | ⟨q, rest'⟩ <;> simp_all
  case ssl0 =>
    obtain ⟨hd, hstr, rest, hq⟩ := h3
    unfold ssl0 ssle
    split_ifs <;>
      simp_all [Scanner.error, Scanner.popParseState, digitsVal] <;>
    rcases rest with _ | ⟨q, rest'⟩ <;> simp_all
  case ssl =>
    obtain ⟨⟨d, ds, hd, hd1, hd9⟩, hstr, rest, hq⟩ := h3
    unfold ssl ssle
    have hpos := digitsVal_cons_pos d ds hd1
    split_ifs <;>
      simp_all [Scanner.error, Scanner.popParseState]
    · split_ifs <;> simp_all <;> omega
  case ssf =>
    obtain ⟨hstr, hd, rest, hq⟩ := h3
    unfold ssf
    dsimp only
    split_ifs with h0
    · rcases rest with _ | ⟨q, rest'⟩ <;>
        simp_all [Scanner.popParseState] <;> omega
    · simp_all
      omega
  case ss =>
    obtain ⟨hstr, hd, rest, hq⟩ := h3
    unfold ss
    dsimp only
    split_ifs with h0
    · rcases rest with _ | ⟨q, rest'⟩ <;>
        simp_all [Scanner.popParseState] <;> omega
    · simp_all
      omega
  case se =>
    obtain ⟨hp, hd, hstr⟩ := h3
    unfold se
    rcases hq : s.parseState with _ | ⟨p, rest⟩
    · simp_all
    · cases p
      case parseString => simp_all
      case parseDictionaryKey =>
        unfold sv
        split_ifs <;>
          simp_all [Scanner.pushParseState, Scanner.error]
      case parseDictionaryValue =>
        unfold sd
        split_ifs <;>
          simp_all [Scanner.pushParseState, Scanner.error, Scanner.popParseState] <;>
        rcases rest with _ | ⟨q, rest'⟩ <;> simp_all
      case parseListValue =>
        unfold sl sv
        split_ifs <;>
          simp_all [Scanner.pushParseState, Scanner.error, Scanner.popParseState] <;>
        rcases rest with _ | ⟨q, rest'⟩ <;> simp_all
      case parseInteger => simp_all [Scanner.error]
      case parseStringLength => simp_all [Scanner.error]
  case stateError => simp_all [stateError, Option.isSome_iff_ne_none]
  case stateEndTop => simp_all [stateEndTop]

theorem inv_bytesSet (s : Scanner) (n : Nat) : Inv { s with bytes := n } ↔ Inv s := by
  cases hs : s.step <;> simp [Inv, StepInv, hs]

theorem inv_runScan : ∀ (bs : List Nat) (s : Scanner), Inv s → Inv (runScan s bs) := by
  intro bs
  induction bs with
  | nil => intro s h; simpa [runScan] using h
  | cons c cs ih =>
    intro s h
    simp only [runScan]
    exact ih _ (inv_scanStep _ c ((inv_bytesSet s _).mpr h))

theorem runScan_append (s : Scanner) (as bs : List Nat) :
    runScan s (as ++ bs) = runScan (runScan s as) bs := by
  induction as generalizing s with
  | nil => simp [runScan]
  | cons c cs ih => simp only [List.cons_append, runScan]; exact ih _

theorem checkValidLoop_nil (s : Scanner) :
    checkValidLoop s [] = none ↔ (s.err = none ∧ s.endTop = true) := by
  simp only [checkValidLoop, Scanner.eof]
  split_ifs <;> simp_all [Option.isSome_iff_ne_none]

theorem valid_run : ∀ (bs : List Nat) (s : Scanner), Inv s →
    checkValidLoop s bs = none →
    (runScan s bs).err = none ∧ (runScan s bs).endTop = true := by
  intro bs
  induction bs with
  | nil =>
    intro s _ h
    simpa [runScan] using (checkValidLoop_nil s).mp h
  | cons c cs ih =>
    intro s hInv h
    simp only [checkValidLoop] at h
    simp only [runScan]
    have hInv1 : Inv { s with bytes := s.bytes + 1 } := (inv_bytesSet s _).mpr hInv
    by_cases hr : (scanStep { s with bytes := s.bytes + 1 } c).2 = .scanError
    · exfalso
      rw [if_pos hr] at h
      have hsome := (scanStep_facts _ c hInv1).1 hr
      rw [h] at hsome
      simp at hsome
    · rw [if_neg hr] at h
      exact ih _ (inv_scanStep _ c hInv1) h

theorem endTop_absorbs : ∀ (bs : List Nat) (s : Scanner),
    s.step = .stateEndTop → s.err = none → s.endTop = true →
    checkValidLoop s bs = none := by
  intro bs
  induction bs with
  | nil =>
    intro s _ h2 h3
    exact (checkValidLoop_nil s).mpr ⟨h2, h3⟩
  | cons c cs ih =>
    intro s h1 h2 h3
    simp only [checkValidLoop, scanStep, h1, stateEndTop]
    simp only [reduceCtorEq, if_false]
    exact ih _ rfl h2 h3

theorem checkValidLoop_append : ∀ (bs : List Nat) (s : Scanner) (suffix : List Nat),
    Inv s → checkValidLoop s bs = none → checkValidLoop s (bs ++ suffix) = none := by
  intro bs
  induction bs with
  | nil =>
    intro s suffix hInv h
    obtain ⟨he, ht⟩ := (checkValidLoop_nil s).mp h
    have hstep : s.step = .stateEndTop := hInv.2.1.mp ht
    simpa using endTop_absorbs suffix s hstep he ht
  | cons c cs ih =>
    intro s suffix hInv h
    simp only [checkValidLoop] at h
    simp only [List.cons_append, checkValidLoop]
    have hInv1 : Inv { s with bytes := s.bytes + 1 } := (inv_bytesSet s _).mpr hInv
    by_cases hr : (scanStep { s with bytes := s.bytes + 1 } c).2 = .scanError
    · rw [if_pos hr] at h ⊢
      exact h
    · rw [if_neg hr] at h ⊢
      exact ih _ suffix (inv_scanStep _ c hInv1) h



/-- C7 counterexample: on the empty input (no bytes remain immediately),
the scanner state has an empty frame stack and an unset sticky error, yet
`eof` returns `scanError` (not "end") and the validator rejects — the
claim's "end if the frame stack is empty and the sticky error is unset"
is false as stated. -/
theorem C7_counterexample :
    (runScan zeroScanner.reset []).parseState = [] ∧
    (runScan zeroScanner.reset []).err = none ∧
    ((runScan zeroScanner.reset []).eof).2 = .scanError ∧
    Valid [] = false := by
  decide

/-- C7 amended: `eof` returns "end" iff the sticky error is unset and the
`endTop` latch is set (a complete top-level value was seen); with the
error unset and `endTop` clear it sets and returns "unexpected end of
Bencode input"; in particular every input whose scan leaves a non-empty
frame stack is rejected at EOF. -/
theorem C7_eof_amended (s : Scanner) (input : List Nat)
    (hne : (runScan zeroScanner.reset input).parseState ≠ []) :
    ((s.eof).2 = .scanEnd ↔ (s.err = none ∧ s.endTop = true)) ∧
    (s.err = none → s.endTop = false →
      (s.eof).1.err = some (.synErr "unexpected end of Bencode input" s.bytes) ∧
      (s.eof).2 = .scanError) ∧
    Valid input = false := by
  refine ⟨?_, ?_, ?_⟩
  · unfold Scanner.eof
    split_ifs <;> simp_all [Option.isSome_iff_ne_none]
  · intro he ht
    unfold Scanner.eof
    simp [he, ht]
  · by_contra hv
    rw [Bool.not_eq_false] at hv
    unfold Valid checkValid at hv
    rw [Option.isNone_iff_eq_none] at hv
    obtain ⟨he, ht⟩ := valid_run input zeroScanner.reset inv_zeroReset hv
    have hInvR := inv_runScan input zeroScanner.reset inv_zeroReset
    have hstep := hInvR.2.1.mp ht
    have h3 := hInvR.2.2
    rw [StepInv, hstep] at h3
    exact hne h3.1

theorem C7_eof_amended_witness : Valid (bytes "d") = false :=
  (C7_eof_amended zeroScanner (bytes "d") (by decide)).2.2

/-- C9: frame-stack invariant of the scanner, for every byte sequence fed
from the reset state.  The reset state's stack is empty (scanning is
before any value); feeding one more byte `c` after a prefix `p` steps the
reached state once, and when that step does not latch an error the stack
is pushed by exactly one frame exactly on the four begin opcodes, popped
by exactly one frame exactly on an end opcode or at a string token's
matching close (its zero-length close at the `:` delimiter, or its final
body byte), never changes by more than one frame, and is empty exactly
when the `endTop` latch is set (the stream's single top-level value is
complete, i.e. scanning is between top-level values/finished). -/
theorem C9_frame_stack (p : List Nat) (c : Nat) :
    (zeroScanner.reset).parseState = [] ∧
    runScan zeroScanner.reset (p ++ [c]) =
      (scanStep { runScan zeroScanner.reset p with
                  bytes := (runScan zeroScanner.reset p).bytes + 1 } c).1 ∧
    StepFacts { runScan zeroScanner.reset p with
                bytes := (runScan zeroScanner.reset p).bytes + 1 } c := by
  refine ⟨rfl, ?_, ?_⟩
  · rw [runScan_append]
    simp [runScan]
  · exact scanStep_facts _ c
      ((inv_bytesSet _ _).mpr (inv_runScan p zeroScanner.reset inv_zeroReset))

theorem C9_frame_stack_witness :
    (runScan zeroScanner.reset (bytes "l" ++ ['i'.toNat])).parseState.length = 2 := by
  obtain ⟨-, heq, -, hfacts⟩ := C9_frame_stack (bytes "l") 'i'.toNat
  rw [heq, (hfacts (by decide)).1.mpr (by decide)]
  decide

/-- C10: trailing garbage is never rejected — every byte sequence accepted
by the validator remains accepted after appending an arbitrary suffix,
because completing the first top-level value moves the scanner to the
absorbing `stateEndTop` transition, which answers every further byte with
`scanEnd`. -/
theorem C10_trailing_bytes (v suffix : List Nat) (h : Valid v = true) :
    Valid (v ++ suffix) = true := by
  unfold Valid checkValid at h ⊢
  rw [Option.isNone_iff_eq_none] at h ⊢
  exact checkValidLoop_append v _ suffix inv_zeroReset h

theorem C10_trailing_bytes_witness :
    Valid (bytes "de") = true ∧ Valid (bytes "de" ++ bytes "xyz") = true :=
  ⟨by decide, C10_trailing_bytes (bytes "de") (bytes "xyz") (by decide)⟩



/-- The members of the source's `field` struct that participate in field
resolution: the serialized name, whether it came from an explicit
`bencode:"..."` tag, and the index path through (embedded) structs.  The
remaining members (`nameBytes`, `equalFold`, `omitEmpty`, `quoted`,
`encoder`) are carried along in Go but never consulted by the sort or by
`dominantField`. -/
structure field where
  name : String
  tag : Bool
  index : List Nat
deriving DecidableEq, Repr

/-- The source's `byIndex.Less`: lexicographic comparison of index paths,
a shorter prefix ordering before its extensions. -/
def byIndexLess : List Nat → List Nat → Bool
  | [], ys => decide (0 < ys.length)
  | _ :: _, [] => false
  | x :: xs, y :: ys => if x ≠ y then decide (x < y) else byIndexLess xs ys

/-- The comparator passed to `sort.Slice` in `typeFields` (lines 148-160):
by name, then by depth (index length), then tagged before untagged, then
by index path. -/
def fieldLess (x y : field) : Bool :=
  if x.name ≠ y.name then decide (x.name < y.name)
  else if x.index.length ≠ y.index.length then decide (x.index.length < y.index.length)
  else if x.tag ≠ y.tag then x.tag
  else byIndexLess x.index y.index

/-- Sorted-before-or-equivalent relation induced by `fieldLess`: exactly
the postcondition `sort.Slice` guarantees between adjacent elements. -/
def fieldLE (x y : field) : Prop := ¬ fieldLess y x = true

instance : DecidableRel fieldLE := fun _ _ => instDecidableNot

/-- The source's `dominantField`: with at least two candidates whose first
two agree in depth and taggedness the whole group is dropped, otherwise
the first candidate wins. -/
def dominantField (fs : List field) : Option field :=
  match fs with
  | [] => none
  | [f] => some f
  | f0 :: f1 :: _ =>
    if f0.index.length = f1.index.length ∧ f0.tag = f1.tag then none
    else some f0

/-- The run-collapsing loop of `typeFields` (lines 162-180): group
adjacent fields of equal name; a singleton run is kept as is, a longer run
is decided by `dominantField`.  The loop advances by at least one field
per run, so running it with fuel equal to the list length is exact; the
fuel only makes the recursion structural. -/
def collapseRunsFuel : Nat → List field → List field
  | _, [] => []
  | 0, _ :: _ => []
  | fuel + 1, fi :: rest =>
    let run := rest.takeWhile (fun fj => fj.name = fi.name)
    let tail := rest.dropWhile (fun fj => fj.name = fi.name)
    (if run.isEmpty then [fi]
     else match dominantField (fi :: run) with
          | some f => [f]
          | none => []) ++ collapseRunsFuel fuel tail

/-- The run-collapsing loop at its exact fuel. -/
def collapseRuns (l : List field) : List field := collapseRunsFuel l.length l

/-- Final ordering of `typeFields` (line 183, `sort.Sort(byIndex(...))`). -/
def byIndexFieldLE (x y : field) : Prop := ¬ byIndexLess y.index x.index = true

instance : DecidableRel byIndexFieldLE := fun _ _ => instDecidableNot

/-- The name-resolution phase of the source's `typeFields` (lines
148-189), from the accumulated candidate list: sort by the dominance
order, collapse same-name runs with `dominantField`, then re-sort the
survivors by index path. -/
def typeFieldsResolve (cands : List field) : List field :=
  List.insertionSort byIndexFieldLE (collapseRuns (List.insertionSort fieldLE cands))

/-- The same-name candidates of `n`, in the dominance order in which the
collapse examines them. -/
def groupFor (cands : List field) (n : String) : List field :=
  (List.insertionSort fieldLE cands).filter (fun f => f.name = n)



/-- C4 counterexample: resolution binds `X` to the depth-2 tagged
candidate even though an equal-depth untagged candidate and a deeper
tagged candidate exist (so the winner is neither unambiguously shallower
than every other candidate nor the only annotated one), and binds `Y`
even though two same-name candidates of equal depth and equal
annotated-ness exist (the group is not dropped: only the first two in
dominance order are compared). -/
theorem C4_counterexample :
    (typeFieldsResolve [⟨"X", true, [0, 0]⟩, ⟨"X", false, [1, 0]⟩, ⟨"X", true, [2, 0, 0]⟩] =
       [⟨"X", true, [0, 0]⟩] ∧
     ¬ (∀ g ∈ [(⟨"X", false, [1, 0]⟩ : field), ⟨"X", true, [2, 0, 0]⟩],
          (⟨"X", true, [0, 0]⟩ : field).index.length < g.index.length) ∧
     ¬ (∀ g ∈ [(⟨"X", false, [1, 0]⟩ : field), ⟨"X", true, [2, 0, 0]⟩], g.tag = false)) ∧
    (typeFieldsResolve [⟨"Y", false, [0]⟩, ⟨"Y", false, [1, 0]⟩, ⟨"Y", false, [2, 0]⟩] =
       [⟨"Y", false, [0]⟩] ∧
     (⟨"Y", false, [1, 0]⟩ : field).index.length = (⟨"Y", false, [2, 0]⟩ : field).index.length ∧
     (⟨"Y", false, [1, 0]⟩ : field).tag = (⟨"Y", false, [2, 0]⟩ : field).tag) := by
  decide

theorem byIndexLess_asymm : ∀ (a b : List Nat),
    byIndexLess a b = true → byIndexLess b a = true → False := by
  intro a
  induction a with
  | nil => intro b h1 h2; cases b <;> simp [byIndexLess] at h1 h2
  | cons x xs ih =>
    intro b h1 h2
    cases b with
    | nil => simp [byIndexLess] at h1
    | cons y ys =>
      simp only [byIndexLess] at h1 h2
      split_ifs at h1 h2 <;> simp_all <;> try omega

theorem byIndexLess_trans : ∀ (a b c : List Nat),
    byIndexLess a b = true → byIndexLess b c = true → byIndexLess a c = true := by
  intro a
  induction a with
  | nil =>
    intro b c h1 h2
    cases b with
    | nil => simp [byIndexLess] at h1
    | cons y ys =>
      cases c with
      | nil => simp [byIndexLess] at h2
      | cons z zs => simp [byIndexLess]
  | cons x xs ih =>
    intro b c h1 h2
    cases b with
    | nil => simp [byIndexLess] at h1
    | cons y ys =>
      cases c with
      | nil => simp [byIndexLess] at h2
      | cons z zs =>
        simp only [byIndexLess] at h1 h2 ⊢
        split_ifs at h1 h2 ⊢ <;> simp_all <;> try omega
        exact ih ys zs h1 h2

theorem byIndexLess_connex : ∀ (a b : List Nat),
    byIndexLess a b = false → byIndexLess b a = false → a = b := by
  intro a
  induction a with
  | nil =>
    intro b h1 _
    cases b with
    | nil => rfl
    | cons y ys => simp [byIndexLess] at h1
  | cons x xs ih =>
    intro b h1 h2
    cases b with
    | nil => simp [byIndexLess] at h2
    | cons y ys =>
      simp only [byIndexLess] at h1 h2
      split_ifs at h1 h2 <;> simp_all <;> try omega
      exact ih ys h1 h2



theorem fieldLess_asymm (a b : field) (h1 : fieldLess a b = true)
    (h2 : fieldLess b a = true) : False := by
  unfold fieldLess at h1 h2
  split_ifs at h1 h2 <;> simp_all <;>
    first
    | omega
    | exact absurd h2 (not_lt.mpr h1.le)
    | exact byIndexLess_asymm _ _ h1 h2

theorem fieldLess_trans (a b c : field) (h1 : fieldLess a b = true)
    (h2 : fieldLess b c = true) : fieldLess a c = true := by
  unfold fieldLess at h1 h2 ⊢
  split_ifs at h1 h2 ⊢ <;> simp_all <;>
    first
    | omega
    | exact lt_trans h1 h2
    | (exact absurd (h1.trans h2) (by simp_all))
    | exact byIndexLess_trans _ _ _ h1 h2

theorem fieldLess_connex (a b : field) (h1 : fieldLess a b = false)
    (h2 : fieldLess b a = false) : a = b := by
  obtain ⟨an, at_, ai⟩ := a
  obtain ⟨bn, bt, bi⟩ := b
  unfold fieldLess at h1 h2
  simp only at h1 h2 ⊢
  split_ifs at h1 h2 <;> simp_all
  · rcases lt_trichotomy an bn with h | h | h <;> simp_all <;>
      first
      | exact absurd h (not_lt.mpr h1)
      | exact absurd h (not_lt.mpr h2)
  · omega
  · exact byIndexLess_connex _ _ h1 h2

theorem fieldLess_cotrans (a b c : field) (h : fieldLess c a = true) :
    fieldLess c b = true ∨ fieldLess b a = true := by
  by_cases h1 : fieldLess c b = true
  · exact Or.inl h1
  by_cases h2 : fieldLess b c = true
  · exact Or.inr (fieldLess_trans b c a h2 h)
  · have hbc : b = c :=
      fieldLess_connex b c (Bool.not_eq_true _ ▸ h2) (Bool.not_eq_true _ ▸ h1)
    exact Or.inr (hbc ▸ h)

instance : IsTotal field fieldLE :=
  ⟨fun a b => by
    by_cases h : fieldLess b a = true
    · exact Or.inr fun h2 => fieldLess_asymm b a h h2
    · exact Or.inl h⟩

instance : IsTrans field fieldLE :=
  ⟨fun a b c hab hbc hca => by
    rcases fieldLess_cotrans a b c hca with h | h
    · exact hbc h
    · exact hab h⟩

theorem fieldLE_name_le (a b : field) (h : fieldLE a b) : a.name ≤ b.name := by
  unfold fieldLE fieldLess at h
  by_cases hn : b.name = a.name
  · exact hn.ge
  · have hlt : ¬ b.name < a.name := by
      intro hlt
      apply h
      rw [if_pos hn]
      simpa using hlt
    exact not_lt.mp hlt

theorem fieldLE_depth_le (a b : field) (h : fieldLE a b) (hn : a.name = b.name) :
    a.index.length ≤ b.index.length := by
  unfold fieldLE fieldLess at h
  split_ifs at h with h1 h2 <;> simp_all

theorem fieldLE_tag (a b : field) (h : fieldLE a b) (hn : a.name = b.name)
    (hl : a.index.length = b.index.length) (htb : b.tag = true) : a.tag = true := by
  unfold fieldLE fieldLess at h
  split_ifs at h with h1 h2 h3 <;> simp_all



/-- Outcome of collapsing one same-name run, as in the loop of
`typeFields`: a single candidate survives, otherwise `dominantField`
decides. -/
def groupWinner : List field → List field
  | [] => []
  | [f] => [f]
  | f0 :: f1 :: rest =>
    match dominantField (f0 :: f1 :: rest) with
    | some f => [f]
    | none => []

theorem collapseRunsFuel_subset : ∀ (fuel : Nat) (l : List field) (f : field),
    f ∈ collapseRunsFuel fuel l → f ∈ l := by
  intro fuel
  induction fuel with
  | zero => intro l f h; cases l <;> simp [collapseRunsFuel] at h
  | succ fuel ih =>
    intro l f h
    cases l with
    | nil => simp [collapseRunsFuel] at h
    | cons fi rest =>
      simp only [collapseRunsFuel, List.mem_append] at h
      rcases h with h | h
      · split_ifs at h with hrun
        · simp at h
          simp [h]
        · rcases hd : dominantField
              (fi :: rest.takeWhile (fun fj => fj.name = fi.name)) with _ | w
          · rw [hd] at h; simp at h
          · rw [hd] at h
            simp at h
            subst h
            rcases hg : rest.takeWhile (fun fj => fj.name = fi.name) with _ | ⟨r0, rs⟩
            · rw [hg] at hd; simp [dominantField] at hd; simp [hd]
            · rw [hg] at hd
              simp only [dominantField] at hd
              split_ifs at hd <;> simp at hd <;> simp [hd]
      · have := ih _ f h
        right
        exact (List.dropWhile_sublist _).subset this

theorem sorted_cons_name_lt (fi : field) (rest : List field)
    (hs : List.Pairwise fieldLE (fi :: rest)) :
    ∀ g ∈ rest.dropWhile (fun fj => fj.name = fi.name), g.name ≠ fi.name := by
  induction rest generalizing fi with
  | nil => simp
  | cons r rs ih =>
    have hfir : fieldLE fi r := (List.pairwise_cons.mp hs).1 r (by simp)
    by_cases hr : r.name = fi.name
    · rw [List.dropWhile_cons_of_pos (by simpa using hr)]
      have hs' : List.Pairwise fieldLE (fi :: rs) := by
        have h1 := (List.pairwise_cons.mp hs).1
        have h2 := List.pairwise_cons.mp (List.pairwise_cons.mp hs).2
        exact List.pairwise_cons.mpr ⟨fun g hg => h1 g (by simp [hg]), h2.2⟩
      exact ih fi hs'
    · rw [List.dropWhile_cons_of_neg (by simpa using hr)]
      intro g hg
      simp only [List.mem_cons] at hg
      rcases hg with rfl | hg
      · exact hr
      · have hrg : fieldLE r g := (List.pairwise_cons.mp
          (List.pairwise_cons.mp hs).2).1 g hg
        have h1 : fi.name ≤ r.name := fieldLE_name_le fi r hfir
        have h2 : r.name ≤ g.name := fieldLE_name_le r g hrg
        intro hgn
        exact hr (le_antisymm (hgn ▸ h2) (hgn ▸ h1) ▸ rfl)



theorem groupWinner_subset : ∀ (l : List field) (g : field),
    g ∈ groupWinner l → g ∈ l := by
  intro l g h
  match l with
  | [] => simp [groupWinner] at h
  | [f] =>
    simp [groupWinner] at h
    simp [h]
  | f0 :: f1 :: rest =>
    simp only [groupWinner] at h
    rcases hd : dominantField (f0 :: f1 :: rest) with _ | w
    · rw [hd] at h; simp at h
    · rw [hd] at h
      simp at h
      subst h
      simp only [dominantField] at hd
      split_ifs at hd <;> simp_all

theorem collapse_filter (n : String) : ∀ (fuel : Nat) (l : List field),
    l.length ≤ fuel → List.Pairwise fieldLE l →
    (collapseRunsFuel fuel l).filter (fun f => f.name = n) =
      groupWinner (l.filter (fun f => f.name = n)) := by
  intro fuel
  induction fuel with
  | zero =>
    intro l hlen _
    cases l with
    | nil => simp [collapseRunsFuel, groupWinner]
    | cons fi rest => simp at hlen
  | succ fuel ih =>
    intro l hlen hs
    cases l with
    | nil => simp [collapseRunsFuel, groupWinner]
    | cons fi rest =>
      have hrun_names : ∀ g ∈ rest.takeWhile (fun fj => fj.name = fi.name),
          g.name = fi.name := by
        intro g hg
        simpa using List.mem_takeWhile_imp hg
      have htail_names := sorted_cons_name_lt fi rest hs
      have htail_len : (rest.dropWhile (fun fj => fj.name = fi.name)).length ≤ fuel := by
        have h1 := (List.dropWhile_sublist
          (fun fj => fj.name = fi.name) (l := rest)).length_le
        simp at hlen
        omega
      have htail_sorted :
          List.Pairwise fieldLE (rest.dropWhile (fun fj => fj.name = fi.name)) := by
        refine List.Pairwise.sublist ?_ hs
        exact (List.dropWhile_sublist _).trans (List.sublist_cons_self fi rest)
      have hcollapse_tail :
          (collapseRunsFuel fuel
            (rest.dropWhile (fun fj => fj.name = fi.name))).filter
              (fun f => f.name = n) =
            groupWinner ((rest.dropWhile (fun fj => fj.name = fi.name)).filter
              (fun f => f.name = n)) := ih _ htail_len htail_sorted
      have hWG : (if (rest.takeWhile (fun fj => fj.name = fi.name)).isEmpty then [fi]
           else match dominantField
              (fi :: rest.takeWhile (fun fj => fj.name = fi.name)) with
            | some f => [f]
            | none => []) =
          groupWinner (fi :: rest.takeWhile (fun fj => fj.name = fi.name)) := by
        rcases hg : rest.takeWhile (fun fj => fj.name = fi.name) with _ | ⟨r0, rs⟩ <;>
          rw [hg] <;> simp [groupWinner]
      have hWnames : ∀ g ∈ groupWinner
          (fi :: rest.takeWhile (fun fj => fj.name = fi.name)),
          g.name = fi.name := by
        intro g hgmem
        have := groupWinner_subset _ g hgmem
        rcases List.mem_cons.mp this with rfl | hgr
        · rfl
        · exact hrun_names g hgr
      simp only [collapseRunsFuel, List.filter_append]
      rw [hWG, hcollapse_tail]
      by_cases hn : fi.name = n
      · have htail_filter :
            (rest.dropWhile (fun fj => fj.name = fi.name)).filter
              (fun f => f.name = n) = [] := by
          rw [List.filter_eq_nil_iff]
          intro g hg
          simp only [decide_eq_true_eq]
          intro hgn
          exact htail_names g hg (hgn.trans hn.symm)
        have hfilter_l :
            (fi :: rest).filter (fun f => f.name = n) =
              fi :: rest.takeWhile (fun fj => fj.name = fi.name) := by
          conv_lhs => rw [← List.takeWhile_append_dropWhile
            (p := fun fj => fj.name = fi.name) (l := rest)]
          rw [List.filter_cons, List.filter_append, htail_filter]
          rw [List.filter_eq_self.mpr (fun g hg => by
            simp only [decide_eq_true_eq]
            exact (hrun_names g hg).trans hn)]
          simp [hn]
        rw [htail_filter, hfilter_l]
        have : groupWinner [] = ([] : List field) := rfl
        rw [this, List.append_nil]
        exact List.filter_eq_self.mpr (fun g hg => by
          simp only [decide_eq_true_eq]
          exact (hWnames g hg).trans hn)
      · have hrun_filter :
            (rest.takeWhile (fun fj => fj.name = fi.name)).filter
              (fun f => f.name = n) = [] := by
          rw [List.filter_eq_nil_iff]
          intro g hg
          simp only [decide_eq_true_eq]
          intro hgn
          exact hn ((hrun_names g hg).symm.trans hgn)
        have hfilter_l :
            (fi :: rest).filter (fun f => f.name = n) =
              (rest.dropWhile (fun fj => fj.name = fi.name)).filter
                (fun f => f.name = n) := by
          conv_lhs => rw [← List.takeWhile_append_dropWhile
            (p := fun fj => fj.name = fi.name) (l := rest)]
          rw [List.filter_cons, List.filter_append, hrun_filter]
          simp [hn]
        have hW_filter :
            (groupWinner (fi :: rest.takeWhile (fun fj => fj.name = fi.name))).filter
              (fun f => f.name = n) = [] := by
          rw [List.filter_eq_nil_iff]
          intro g hg
          simp only [decide_eq_true_eq]
          intro hgn
          exact hn ((hWnames g hg).symm.trans hgn)
        rw [hfilter_l, hW_filter]
        rfl



/-- C4 amended: write `G` for the same-name candidates of a name `n` in
dominance order (shallower first, annotated before unannotated).  A field
`f` is bound to `n` exactly by winning its group: `f` heads `G`, `f` is at
minimal depth among all candidates of `n`, the head does not tie the
second candidate in both depth and annotated-ness, and `f` is either
strictly shallower than every other candidate of `n` or the unique
annotated candidate among those at minimal depth (deeper annotated
candidates do not disturb it); conversely, whenever the head of `G` does
not tie the second candidate in both depth and annotated-ness, that head
IS bound — it appears in the resolved field list; and when the first two
candidates of `G` tie in both depth and annotated-ness, the whole group
is dropped — no field is bound for `n` and no error is raised. -/
theorem C4_dominant_amended (cands : List field) (n : String) :
    (groupFor cands n).Perm (cands.filter (fun f => f.name = n)) ∧
    (∀ f ∈ typeFieldsResolve cands, f.name = n →
      ∃ tail, groupFor cands n = f :: tail ∧
        (∀ g ∈ tail, f.index.length ≤ g.index.length) ∧
        (∀ f₁ tail', tail = f₁ :: tail' →
           ¬(f.index.length = f₁.index.length ∧ f.tag = f₁.tag)) ∧
        ((∀ g ∈ tail, f.index.length < g.index.length) ∨
         (f.tag = true ∧
          ∀ g ∈ tail, g.index.length = f.index.length → g.tag = false))) ∧
    (∀ f tail, groupFor cands n = f :: tail →
       (∀ f₁ tail', tail = f₁ :: tail' →
          ¬(f.index.length = f₁.index.length ∧ f.tag = f₁.tag)) →
       f ∈ typeFieldsResolve cands) ∧
    (∀ f₀ f₁ tail, groupFor cands n = f₀ :: f₁ :: tail →
       f₀.index.length = f₁.index.length → f₀.tag = f₁.tag →
       ∀ f ∈ typeFieldsResolve cands, f.name ≠ n) := by
  have hsorted : List.Pairwise fieldLE (List.insertionSort fieldLE cands) :=
    List.sorted_insertionSort fieldLE cands
  have hcf := collapse_filter n (List.insertionSort fieldLE cands).length
    (List.insertionSort fieldLE cands) le_rfl hsorted
  have hGsorted : List.Pairwise fieldLE (groupFor cands n) :=
    hsorted.filter _
  have hGnames : ∀ g ∈ groupFor cands n, g.name = n := by
    intro g hg
    simpa using (List.mem_filter.mp hg).2
  have hmemW : ∀ f ∈ typeFieldsResolve cands, f.name = n →
      f ∈ groupWinner (groupFor cands n) := by
    intro f hf hfn
    have hf1 : f ∈ collapseRuns (List.insertionSort fieldLE cands) :=
      (List.perm_insertionSort byIndexFieldLE _).mem_iff.mp hf
    have hf2 : f ∈ (collapseRunsFuel (List.insertionSort fieldLE cands).length
        (List.insertionSort fieldLE cands)).filter (fun g => g.name = n) :=
      List.mem_filter.mpr ⟨hf1, by simp [hfn]⟩
    rwa [hcf] at hf2
  refine ⟨(List.perm_insertionSort fieldLE cands).filter _, ?_, ?_, ?_⟩
  · intro f hf hfn
    have hf2 := hmemW f hf hfn
    rcases hG : groupFor cands n with _ | ⟨g0, tail⟩
    · rw [hG] at hf2
      simp [groupWinner] at hf2
    · rw [hG] at hf2 hGsorted
      have hle0 : ∀ g ∈ tail, fieldLE g0 g := (List.pairwise_cons.mp hGsorted).1
      have htailnames : ∀ g ∈ tail, g.name = n := by
        intro g hg
        exact hGnames g (by rw [hG]; exact List.mem_cons_of_mem _ hg)
      have hg0name : g0.name = n := hGnames g0 (by rw [hG]; simp)
      have hwin : f = g0 ∧
          (∀ f₁ tail', tail = f₁ :: tail' →
            ¬(g0.index.length = f₁.index.length ∧ g0.tag = f₁.tag)) := by
        rcases tail with _ | ⟨t1, ts⟩
        · simp [groupWinner] at hf2
          exact ⟨hf2, by intro f₁ tail' h; cases h⟩
        · simp only [groupWinner] at hf2
          rcases hd : dominantField (g0 :: t1 :: ts) with _ | w
          · rw [hd] at hf2; simp at hf2
          · rw [hd] at hf2
            simp only [List.mem_singleton] at hf2
            simp only [dominantField] at hd
            split_ifs at hd with htie
            simp only [Option.some.injEq] at hd
            subst hd
            refine ⟨hf2, ?_⟩
            intro f₁ tail' he htie2
            injection he with he1 he2
            exact htie (he1 ▸ htie2)
      obtain ⟨rfl, hnotie⟩ := hwin
      refine ⟨tail, rfl, ?_, hnotie, ?_⟩
      · intro g hg
        exact fieldLE_depth_le _ _ (hle0 g hg) (hg0name.trans (htailnames g hg).symm)
      · rcases tail with _ | ⟨t1, ts⟩
        · exact Or.inl (by simp)
        · have ht1name : t1.name = n := htailnames t1 (by simp)
          have hle01 : fieldLE f t1 := hle0 t1 (by simp)
          have htailPW : List.Pairwise fieldLE (t1 :: ts) :=
            (List.pairwise_cons.mp hGsorted).2
          by_cases hd : f.index.length = t1.index.length
          · have ht : ¬ f.tag = t1.tag := fun h => hnotie t1 ts rfl ⟨hd, h⟩
            have ht1tag : t1.tag = false := by
              rcases ht1 : t1.tag with _ | _
              · rfl
              · exact absurd (fieldLE_tag f t1 hle01
                  (hg0name.trans ht1name.symm) hd ht1) (fun h => ht (h.trans ht1.symm))
            have hftag : f.tag = true := by
              rcases hf0 : f.tag with _ | _
              · exact absurd (hf0.trans ht1tag.symm) ht
              · rfl
            refine Or.inr ⟨hftag, ?_⟩
            intro g hg hglen
            simp only [List.mem_cons] at hg
            rcases hg with rfl | hg
            · exact ht1tag
            · rcases hgt : g.tag with _ | _
              · rfl
              · have hle1g : fieldLE t1 g := (List.pairwise_cons.mp htailPW).1 g hg
                have : t1.tag = true := fieldLE_tag t1 g hle1g
                  (ht1name.trans (htailnames g (by simp [hg])).symm)
                  (by omega) hgt
                exact absurd this (by simp [ht1tag])
          · refine Or.inl ?_
            intro g hg
            simp only [List.mem_cons] at hg
            have hle0t1 : f.index.length ≤ t1.index.length :=
              fieldLE_depth_le _ _ hle01 (hg0name.trans ht1name.symm)
            rcases hg with rfl | hg
            · omega
            · have hle1g : fieldLE t1 g := (List.pairwise_cons.mp htailPW).1 g hg
              have : t1.index.length ≤ g.index.length :=
                fieldLE_depth_le _ _ hle1g
                  (ht1name.trans (htailnames g (by simp [hg])).symm)
              omega
  · intro f tail hG hnotie
    have hWf : groupWinner ((List.insertionSort fieldLE cands).filter
        (fun f => f.name = n)) = [f] := by
      have hG' : (List.insertionSort fieldLE cands).filter
          (fun f => f.name = n) = f :: tail := hG
      rw [hG']
      rcases tail with _ | ⟨t1, ts⟩
      · rfl
      · simp only [groupWinner, dominantField]
        rw [if_neg (hnotie t1 ts rfl)]
    have hf1 : f ∈ (collapseRunsFuel (List.insertionSort fieldLE cands).length
        (List.insertionSort fieldLE cands)).filter (fun g => g.name = n) := by
      rw [hcf, hWf]
      simp
    exact (List.perm_insertionSort byIndexFieldLE _).mem_iff.mpr
      (List.mem_filter.mp hf1).1
  · intro f₀ f₁ tail hG hd ht f hf hfn
    have hf2 := hmemW f hf hfn
    rw [hG] at hf2
    simp only [groupWinner, dominantField] at hf2
    rw [if_pos ⟨hd, ht⟩] at hf2
    simp at hf2



theorem C4_dominant_amended_witness :
    (groupFor [⟨"X", true, [0, 0]⟩, ⟨"X", false, [1, 0]⟩, ⟨"X", true, [2, 0, 0]⟩] "X").head? =
      some ⟨"X", true, [0, 0]⟩ ∧
    (⟨"X", true, [0, 0]⟩ : field) ∈
      typeFieldsResolve [⟨"X", true, [0, 0]⟩, ⟨"X", false, [1, 0]⟩, ⟨"X", true, [2, 0, 0]⟩] := by
  constructor
  · obtain ⟨tail, htail, -, -, -⟩ := (C4_dominant_amended
      [⟨"X", true, [0, 0]⟩, ⟨"X", false, [1, 0]⟩, ⟨"X", true, [2, 0, 0]⟩] "X").2.1
      ⟨"X", true, [0, 0]⟩ (by decide) (by decide)
    rw [htail]
    rfl
  · exact (C4_dominant_amended
      [⟨"X", true, [0, 0]⟩, ⟨"X", false, [1, 0]⟩, ⟨"X", true, [2, 0, 0]⟩] "X").2.2.1
      ⟨"X", true, [0, 0]⟩ [⟨"X", false, [1, 0]⟩, ⟨"X", true, [2, 0, 0]⟩] (by decide)
      (by
        intro f₁ tail' h
        injection h with h1 h2
        subst h1
        decide)



/-- A Go slice destination: its visible elements and its capacity. -/
structure GoSlice (α : Type) where
  data : List α
  cap : Nat
deriving DecidableEq, Repr

/-- Capacity update of the source's `list` (decode.go lines 286-290):
`newcap := v.Cap() + v.Cap()/2; if newcap < 4 { newcap = 4 }`. -/
def growCap (c : Nat) : Nat :=
  let newcap := c + c / 2
  if newcap < 4 then 4 else newcap

/-- The slice branch of the source's `list` loop (decode.go lines
275-324), with the `d.value(v.Index(i))` call abstracted: the i-th
decoded element is the i-th entry of `elems`, stored at index `i`.  Per
iteration: grow the capacity when `i` reaches it (`reflect.MakeSlice` of
the new capacity plus `reflect.Copy` preserves the visible elements),
extend the length to `i+1` when needed (`SetLen` reveals zeroed storage),
then store.  After the loop the length is truncated to the element count,
and a slice that received no elements is replaced by an empty
`MakeSlice(t, 0, 0)`. -/
def listBindSlice (zero : α) : List α → Nat → GoSlice α → GoSlice α
  | [], i, v =>
    let v := if i < v.data.length then { v with data := v.data.take i } else v
    if i = 0 then ⟨[], 0⟩ else v
  | x :: rest, i, v =>
    let v := if i ≥ v.cap then { data := v.data, cap := growCap v.cap } else v
    let v := if i ≥ v.data.length then
        { v with data := v.data ++ List.replicate (i + 1 - v.data.length) zero }
      else v
    let v := if i < v.data.length then { v with data := v.data.set i x } else v
    listBindSlice zero rest (i + 1) v

/-- The fixed-size array branch of the source's `list` loop: elements
beyond the array length are decoded into an invalid destination (skipped),
and after the loop any unfilled trailing slots are set to the zero
value. -/
def listBindArray (zero : α) : List α → Nat → List α → List α
  | [], i, arr =>
    if i < arr.length then arr.take i ++ List.replicate (arr.length - i) zero else arr
  | x :: rest, i, arr =>
    if i < arr.length then listBindArray zero rest (i + 1) (arr.set i x)
    else listBindArray zero rest (i + 1) arr

theorem set_append_singleton (l : List α) (z x : α) :
    (l ++ [z]).set l.length x = l ++ [x] := by
  induction l with
  | nil => rfl
  | cons a l ih => simp [List.set, ih]

theorem take_set_succ (l : List α) (i : Nat) (x : α) (h : i < l.length) :
    (l.set i x).take (i + 1) = l.take i ++ [x] := by
  induction l generalizing i with
  | nil => simp at h
  | cons a l ih =>
    cases i with
    | zero => simp [List.set]
    | succ i =>
      simp only [List.set, List.take_succ_cons, List.take]
      rw [ih i (by simpa using h)]
      rfl

theorem growCap_gt (c : Nat) : c < growCap c := by
  simp only [growCap]
  split_ifs <;> omega

theorem listBindSlice_loop (zero : α) : ∀ (rest : List α) (i : Nat) (v : GoSlice α),
    i ≤ v.data.length → v.data.length ≤ v.cap →
    (listBindSlice zero rest i v).data = v.data.take i ++ rest ∧
    (listBindSlice zero rest i v).data.length ≤ (listBindSlice zero rest i v).cap ∧
    ((rest = [] ∧ i = 0 ∧ listBindSlice zero rest i v = ⟨[], 0⟩) ∨
     (∃ k, (listBindSlice zero rest i v).cap = growCap^[k] v.cap)) := by
  intro rest
  induction rest with
  | nil =>
    intro i v hi hc
    simp only [listBindSlice]
    by_cases h0 : i = 0
    · subst h0
      simp
    · rw [if_neg h0]
      by_cases hlt : i < v.data.length
      · rw [if_pos hlt]
        refine ⟨by simp, ?_, Or.inr ⟨0, rfl⟩⟩
        simp
        omega
      · rw [if_neg hlt]
        have he : i = v.data.length := by omega
        exact ⟨by simp [he], hc, Or.inr ⟨0, rfl⟩⟩
  | cons x rest ih =>
    intro i v hi hc
    simp only [listBindSlice]
    rcases (show i = v.data.length ∨ i < v.data.length by omega) with hilen | hilen
    · have hge : i ≥ v.data.length := hilen.ge
      have hrep : i + 1 - v.data.length = 1 := by omega
      by_cases hg : i ≥ v.cap
      · -- at capacity: grow, extend by one, store
        rw [if_pos hg]
        try dsimp only
        rw [if_pos hge, hrep, List.replicate_one]
        try dsimp only
        rw [if_pos (show i < (v.data ++ [zero]).length by simp; omega)]
        try dsimp only
        rw [show (v.data ++ [zero]).set i x = v.data ++ [x] from
          hilen ▸ set_append_singleton v.data zero x]
        have h1 : i + 1 ≤ (v.data ++ [x]).length := by simp; omega
        have h2 : (v.data ++ [x]).length ≤ growCap v.cap := by
          have := growCap_gt v.cap
          simp
          omega
        obtain ⟨hd, hl, hcaps⟩ := ih (i + 1) ⟨v.data ++ [x], growCap v.cap⟩ h1 h2
        refine ⟨?_, hl, ?_⟩
        · rw [hd]
          dsimp only
          rw [hilen, List.take_of_length_le
            (show (v.data ++ [x]).length ≤ v.data.length + 1 from by simp)]
          simp
        · rcases hcaps with ⟨-, h0, -⟩ | ⟨k, hk⟩
          · omega
          · exact Or.inr ⟨k + 1, by rw [hk, Function.iterate_succ_apply]⟩
      · -- within capacity: extend by one, store
        rw [if_neg hg]
        rw [if_pos hge, hrep, List.replicate_one]
        try dsimp only
        rw [if_pos (show i < (v.data ++ [zero]).length by simp; omega)]
        try dsimp only
        rw [show (v.data ++ [zero]).set i x = v.data ++ [x] from
          hilen ▸ set_append_singleton v.data zero x]
        have h1 : i + 1 ≤ (v.data ++ [x]).length := by simp; omega
        have h2 : (v.data ++ [x]).length ≤ v.cap := by simp; omega
        obtain ⟨hd, hl, hcaps⟩ := ih (i + 1) ⟨v.data ++ [x], v.cap⟩ h1 h2
        refine ⟨?_, hl, ?_⟩
        · rw [hd]
          dsimp only
          rw [hilen, List.take_of_length_le
            (show (v.data ++ [x]).length ≤ v.data.length + 1 from by simp)]
          simp
        · rcases hcaps with ⟨-, h0, -⟩ | ⟨k, hk⟩
          · omega
          · exact Or.inr ⟨k, hk⟩
    · -- below the current length: store in place
      rw [if_neg (show ¬ i ≥ v.cap by omega)]
      rw [if_neg (show ¬ i ≥ v.data.length by omega)]
      rw [if_pos hilen]
      try dsimp only
      have h1 : i + 1 ≤ (v.data.set i x).length := by simp; omega
      have h2 : (v.data.set i x).length ≤ v.cap := by simp; omega
      obtain ⟨hd, hl, hcaps⟩ := ih (i + 1) ⟨v.data.set i x, v.cap⟩ h1 h2
      refine ⟨?_, hl, ?_⟩
      · rw [hd]
        try dsimp only
        rw [take_set_succ v.data i x hilen]
        simp
      · rcases hcaps with ⟨-, h0, -⟩ | ⟨k, hk⟩
        · omega
        · exact Or.inr ⟨k, hk⟩

theorem listBindArray_loop (zero : α) : ∀ (rest : List α) (i : Nat) (arr : List α),
    listBindArray zero rest i arr =
      arr.take i ++ rest.take (arr.length - i) ++
        List.replicate (arr.length - i - rest.length) zero := by
  intro rest
  induction rest with
  | nil =>
    intro i arr
    simp only [listBindArray]
    split_ifs with h
    · simp
    · have h1 : arr.take i = arr := List.take_of_length_le (by omega)
      have h2 : arr.length - i = 0 := by omega
      simp [h1, h2]
  | cons x rest ih =>
    intro i arr
    simp only [listBindArray, List.length_cons]
    split_ifs with h
    · rw [ih (i + 1) (arr.set i x), List.length_set, take_set_succ arr i x h]
      have h1 : arr.length - i = (arr.length - (i + 1)) + 1 := by omega
      rw [h1, List.take_succ_cons]
      rw [show arr.length - (i + 1) + 1 - (rest.length + 1) =
            arr.length - (i + 1) - rest.length from by omega]
      simp
    · have hle : arr.length ≤ i := le_of_not_lt h
      rw [ih (i + 1) arr]
      rw [List.take_of_length_le hle,
          List.take_of_length_le (show arr.length ≤ i + 1 from by omega)]
      rw [show arr.length - i = 0 from by omega,
          show arr.length - (i + 1) = 0 from by omega]
      simp



/-- C3: binding a list into a sequence destination.  For a slice
destination (with its length within its capacity), the elements land in
order with none lost or reordered and the final length is exactly the
element count; capacity only ever changes by iterating the growth rule
`c ↦ max 4 (c + c/2)` (geometric × 1.5 with minimum 4) and ends at least
the element count; an empty list resets the slice to the empty slice.
For a fixed-size array destination the first elements are stored in
order and every unfilled trailing slot is set to the zero value (extra
elements beyond the array length are consumed but not stored). -/
theorem C3_list_sequence_binding {α : Type} (zero : α) (elems : List α)
    (v0 : GoSlice α) (arr : List α) (hcap : v0.data.length ≤ v0.cap) :
    ((listBindSlice zero elems 0 v0).data = elems ∧
     elems.length ≤ (listBindSlice zero elems 0 v0).cap ∧
     (elems ≠ [] → ∃ k, (listBindSlice zero elems 0 v0).cap = growCap^[k] v0.cap) ∧
     (elems = [] → listBindSlice zero elems 0 v0 = ⟨[], 0⟩)) ∧
    listBindArray zero elems 0 arr =
      elems.take arr.length ++ List.replicate (arr.length - elems.length) zero := by
  obtain ⟨hd, hl, hcaps⟩ :=
    listBindSlice_loop zero elems 0 v0 (Nat.zero_le _) hcap
  have hdata : (listBindSlice zero elems 0 v0).data = elems := by
    simpa using hd
  refine ⟨⟨hdata, ?_, ?_, ?_⟩, ?_⟩
  · have hl' := hl
    rw [hdata] at hl'
    exact hl'
  · intro hne
    rcases hcaps with ⟨he, -, -⟩ | h
    · exact absurd he hne
    · exact h
  · intro he
    subst he
    simp [listBindSlice]
  · have := listBindArray_loop zero elems 0 arr
    simpa using this


theorem C3_list_sequence_binding_witness :
    (listBindSlice (0 : Nat) [1, 2, 3, 4, 5] 0 ⟨[], 0⟩).data = [1, 2, 3, 4, 5] ∧
    listBindArray (0 : Nat) [1, 2, 3, 4, 5] 0 [9, 9] = [1, 2] ∧
    listBindArray (0 : Nat) [1, 2] 0 [9, 9, 9, 9] = [1, 2, 0, 0] := by
  obtain ⟨⟨hs, -, -, -⟩, -⟩ :=
    C3_list_sequence_binding (0 : Nat) [1, 2, 3, 4, 5] ⟨[], 0⟩ [9, 9] (by decide)
  obtain ⟨-, ha⟩ :=
    C3_list_sequence_binding (0 : Nat) [1, 2, 3, 4, 5] ⟨[], 0⟩ [9, 9] (by decide)
  obtain ⟨-, hb⟩ :=
    C3_list_sequence_binding (0 : Nat) [1, 2] ⟨[], 0⟩ [9, 9, 9, 9] (by decide)
  exact ⟨hs, by rw [ha]; rfl, by rw [hb]; rfl⟩



/-- Model of the Go destination types the decode binder distinguishes by
`reflect.Kind`: strings, `int` (64-bit), `uint8`, slices, fixed-size
arrays and flat structs.  (Map and interface destinations, which the
claims do not exercise, are outside this model.) -/
inductive GoType where
  | tString
  | tInt
  | tUint8
  | tSlice (elem : GoType)
  | tArray (n : Nat) (elem : GoType)
  | tStruct (sname : String) (fields : List (String × GoType))

/-- Runtime values of the modelled Go types.  A Go string holds raw
bytes. -/
inductive GoVal where
  | vString (s : List Nat)
  | vInt (n : Int)
  | vUint8 (n : Nat)
  | vSlice (elems : List GoVal) (cap : Nat)
  | vArray (elems : List GoVal)
  | vStruct (fields : List (String × GoVal))

mutual
/-- The zero value of a type (`reflect.Zero`). -/
def zeroVal : GoType → GoVal
  | .tString => .vString []
  | .tInt => .vInt 0
  | .tUint8 => .vUint8 0
  | .tSlice _ => .vSlice [] 0
  | .tArray n e => .vArray (List.replicate n (zeroVal e))
  | .tStruct _ fs => .vStruct (zeroFields fs)

def zeroFields : List (String × GoType) → List (String × GoVal)
  | [] => []
  | (n, t) :: rest => (n, zeroVal t) :: zeroFields rest
end

/-- `reflect.Type.String()` of the modelled types, as stored in
`UnmarshalTypeError`. -/
def typeDesc : GoType → String
  | .tString => "string"
  | .tInt => "int"
  | .tUint8 => "uint8"
  | .tSlice e => "[]" ++ typeDesc e
  | .tArray n e => "[" ++ toString n ++ "]" ++ typeDesc e
  | .tStruct sname _ => sname

/-- `strconv.ParseInt(s, 10, 64)`: optional sign, at least one digit, no
other bytes, value within `int64`. -/
def parseGoInt (s : List Nat) : Option Int :=
  let (neg, digits) :=
    match s with
    | c :: rest => if c = '-'.toNat then (true, rest)
                   else if c = '+'.toNat then (false, rest)
                   else (false, s)
    | [] => (false, s)
  if digits = [] ∨ ¬ digits.all (fun c => '0'.toNat ≤ c ∧ c ≤ '9'.toNat) then none
  else
    let n := digitsVal digits
    if neg then
      if n ≤ 2 ^ 63 then some (-(n : Int)) else none
    else
      if n ≤ 2 ^ 63 - 1 then some (n : Int) else none

/-- `strconv.ParseUint(s, 10, 64)`: digits only, value within `uint64`. -/
def parseGoUint (s : List Nat) : Option Nat :=
  if s = [] ∨ ¬ s.all (fun c => '0'.toNat ≤ c ∧ c ≤ '9'.toNat) then none
  else
    let n := digitsVal s
    if n ≤ 2 ^ 64 - 1 then some n else none

/-- Value of one byte in the standard base64 alphabet. -/
def b64Val (c : Nat) : Option Nat :=
  if 'A'.toNat ≤ c ∧ c ≤ 'Z'.toNat then some (c - 'A'.toNat)
  else if 'a'.toNat ≤ c ∧ c ≤ 'z'.toNat then some (c - 'a'.toNat + 26)
  else if '0'.toNat ≤ c ∧ c ≤ '9'.toNat then some (c - '0'.toNat + 52)
  else if c = '+'.toNat then some 62
  else if c = '/'.toNat then some 63
  else none

/-- Decode newline-free base64 input in four-byte quanta with `=`
padding allowed only in the final quantum (the algorithm of
`base64.StdEncoding.Decode`; the non-strict default does not check
trailing bits). -/
def b64DecodeQuanta : List Nat → Option (List Nat)
  | [] => some []
  | a :: b :: c :: d :: rest =>
    match b64Val a, b64Val b with
    | some va, some vb =>
      if c = '='.toNat then
        if d = '='.toNat ∧ rest = [] then some [va * 4 + vb / 16]
        else none
      else
        match b64Val c with
        | some vc =>
          if d = '='.toNat then
            if rest = [] then some [va * 4 + vb / 16, (vb % 16) * 16 + vc / 4]
            else none
          else
            match b64Val d with
            | some vd =>
              (b64DecodeQuanta rest).map
                (fun tail => (va * 4 + vb / 16) :: ((vb % 16) * 16 + vc / 4) ::
                  ((vc % 4) * 64 + vd) :: tail)
            | none => none
        | none => none
    | _, _ => none
  | _ => none

/-- Model of `base64.StdEncoding.Decode` on a byte slice: carriage
returns and newlines are ignored, everything else is decoded in
quanta.  `none` models the `CorruptInputError` return (its offset is not
modelled). -/
def goBase64Decode (src : List Nat) : Option (List Nat) :=
  b64DecodeQuanta (src.filter (fun c => ¬ (c = 10 ∨ c = 13)))

/-- `base64.StdEncoding.DecodedLen`. -/
def b64DecodedLen (n : Nat) : Nat := n / 4 * 3

/-- Errors produced by the decode binder (`decode.go`). -/
inductive DErr where
  | typeErr (value : String) (t : GoType) (offset : Int)
      (structName : String) (fieldName : String)
  | fmtErr (msg : String)
  | base64Err
  | invalidUnmarshal (t : Option String)
  | ioEOF
  | unexpectedEOF
  | scanFail (e : SErr)

/-- The `decodeState` struct; `ctxStruct`/`ctxField` are the
`errorContext`, `panicked` latches a Go panic of the binder. -/
structure DState where
  data : List Nat
  off : Nat
  opcode : Op
  scan : Scanner
  ctxStruct : Option GoType
  ctxField : String
  savedError : Option DErr
  disallowUnknownFields : Bool

/-- The source's `(*decodeState).readIndex`. -/
def DState.readIndex (d : DState) : Int := (d.off : Int) - 1

/-- The source's `(*decodeState).init` (the scanner is kept, as in Go). -/
def DState.init (d : DState) (data : List Nat) : DState :=
  { d with
    data := data
    off := 0
    savedError := none
    ctxStruct := none
    ctxField := "" }

/-- The source's `addErrorContext`: attach the enclosing struct type and
field name to an `UnmarshalTypeError`. -/
def DState.addErrorContext (d : DState) (e : DErr) : DErr :=
  if d.ctxStruct.isSome ∨ d.ctxField ≠ "" then
    match e with
    | .typeErr v t o _ _ =>
      .typeErr v t o (match d.ctxStruct with
        | some t' => typeDesc t'
        | none => "") d.ctxField
    | e => e
  else e

/-- The source's `saveError`: only the first error is kept. -/
def DState.saveError (d : DState) (e : DErr) : DState :=
  if d.savedError.isNone then { d with savedError := some (d.addErrorContext e) }
  else d

/-- The source's `scanNext`: step the scanner by one byte (or `eof`),
advancing the offset. -/
def DState.scanNext (d : DState) : DState :=
  if d.off < d.data.length then
    let s := { d.scan with bytes := d.scan.bytes + 1 }
    let r := scanStep s (d.data.getD d.off 0)
    { d with scan := r.1, opcode := r.2, off := d.off + 1 }
  else
    let r := d.scan.eof
    { d with scan := r.1, opcode := r.2, off := d.data.length + 1 }

/-- The source's `scanWhile` (which does not advance the scanner's byte
counter): consume bytes while the opcode stays `op`; at the end of data
call `eof`.  The fuel only bounds iterations; one byte is consumed per
iteration, so `data.length + 1` fuel is exact. -/
def scanWhileFuel : Nat → DState → Op → DState
  | 0, d, _ =>
    let r := d.scan.eof
    { d with scan := r.1, opcode := r.2, off := d.data.length + 1 }
  | fuel + 1, d, op =>
    if d.off < d.data.length then
      let r := scanStep d.scan (d.data.getD d.off 0)
      let d := { d with scan := r.1, off := d.off + 1 }
      if r.2 ≠ op then { d with opcode := r.2 }
      else scanWhileFuel fuel d op
    else
      let r := d.scan.eof
      { d with scan := r.1, opcode := r.2, off := d.data.length + 1 }

def DState.scanWhile (d : DState) (op : Op) : DState :=
  scanWhileFuel (d.data.length + 1) d op

/-- The source's `skip`: step until the parse stack is below the entry
depth.  (Go reads past the end of `data` if that never happens; with
valid input it always does.  Exhausting the fuel models that panic by
returning with the offset past the end.) -/
def skipFuel : Nat → DState → Nat → DState
  | 0, d, _ => { d with off := d.data.length + 1 }
  | fuel + 1, d, depth =>
    let r := scanStep d.scan (d.data.getD d.off 0)
    let d := { d with scan := r.1, off := d.off + 1 }
    if d.scan.parseState.length < depth then { d with opcode := r.2 }
    else skipFuel fuel d depth

def DState.skip (d : DState) : DState :=
  skipFuel (d.data.length + 1) d d.scan.parseState.length

/-- Byte slice `d.data[start:d.readIndex()]`. -/
def DState.sliceFrom (d : DState) (start : Nat) : List Nat :=
  (d.data.take (d.off - 1)).drop start

/-- The source's `(*decodeState).integerStore` restricted to the modelled
destination kinds (no interface or float destinations): parse the digit
run into the destination's integer shape, recording an
`UnmarshalTypeError` on overflow or on a destination of non-numeric
shape; the byte cursor is untouched and no error is returned (decoding
continues), except for the `fromQuoted` misuse returns and the phase
panic on a malformed first byte. -/
def integerStore (d : DState) (item : List Nat) (t : GoType) (v : GoVal)
    (fromQuoted : Bool) : Except String (DState × GoVal × Option DErr) :=
  if item = [] then
    .ok (d.saveError (.fmtErr "bencode: invalid use of ,string struct tag"), v, none)
  else
    let c := item.getD 0 0
    if c ≠ '-'.toNat ∧ (c < '0'.toNat ∨ c > '9'.toNat) then
      if fromQuoted then
        .ok (d, v, some (.fmtErr "bencode: invalid use of ,string struct tag"))
      else .error phasePanicMsg
    else
      match t with
      | .tInt =>
        match parseGoInt item with
        | some n => .ok (d, .vInt n, none)
        | none =>
          .ok (d.saveError (.typeErr ("number " ++ String.mk (item.map Char.ofNat))
            t d.readIndex "" ""), v, none)
      | .tUint8 =>
        match parseGoUint item with
        | some n =>
          if n ≥ 2 ^ 8 then
            .ok (d.saveError (.typeErr ("number " ++ String.mk (item.map Char.ofNat))
              t d.readIndex "" ""), v, none)
          else .ok (d, .vUint8 n, none)
        | none =>
          .ok (d.saveError (.typeErr ("number " ++ String.mk (item.map Char.ofNat))
            t d.readIndex "" ""), v, none)
      | _ =>
        if fromQuoted then
          .ok (d, v, some (.fmtErr "bencode: invalid use of ,string struct tag"))
        else
          .ok (d.saveError (.typeErr "number" t d.readIndex "" ""), v, none)

/-- The source's `(*decodeState).stringStore` restricted to the modelled
destination kinds: a text destination receives the bytes verbatim; a
byte-slice destination receives their `base64.StdEncoding` decoding (a
corrupt-input error is recorded and nothing stored); any other shape
records an `UnmarshalTypeError`.  An empty `item` records the
`,string`-misuse error without storing. -/
def stringStore (d : DState) (item : List Nat) (t : GoType) (v : GoVal)
    (_fromQuoted : Bool) : Except String (DState × GoVal × Option DErr) :=
  if item = [] then
    .ok (d.saveError (.fmtErr "bencode: invalid use of ,string struct tag"), v, none)
  else
    match t with
    | .tSlice elem =>
      match elem with
      | .tUint8 =>
        match goBase64Decode item with
        | some bs =>
          .ok (d, .vSlice (bs.map .vUint8) (b64DecodedLen item.length), none)
        | none => .ok (d.saveError .base64Err, v, none)
      | _ =>
        .ok (d.saveError (.typeErr "string" t d.readIndex "" ""), v, none)
    | .tString => .ok (d, .vString item, none)
    | _ =>
      .ok (d.saveError (.typeErr "string" t d.readIndex "" ""), v, none)



/-- ASCII case folding of one byte (the `foldFunc` comparators of
`encode.go` are ASCII-case-insensitive on ASCII names; the special
Unicode kelvin/long-s folding is outside this model). -/
def foldByte (c : Nat) : Nat :=
  if 'A'.toNat ≤ c ∧ c ≤ 'Z'.toNat then c + 32 else c

def asciiEqualFold (a b : List Nat) : Bool :=
  a.map foldByte = b.map foldByte

/-- The field-lookup loop of `dictionary` (decode.go lines 392-402):
first exact byte equality wins immediately; otherwise the first
case-folded match is remembered as a fallback. -/
def findFieldAux : List (String × GoType) → Nat → List Nat → Option Nat → Option Nat
  | [], _, _, fallback => fallback
  | (fn, _) :: rest, i, key, fallback =>
    if bytes fn = key then some i
    else
      let fallback :=
        if fallback.isNone ∧ asciiEqualFold (bytes fn) key then some i else fallback
      findFieldAux rest (i + 1) key fallback

def findField (fields : List (String × GoType)) (key : List Nat) : Option Nat :=
  findFieldAux fields 0 key none

/-- `v.Field(i)` on a struct value. -/
def structGet (v : GoVal) (i : Nat) : GoVal :=
  match v with
  | .vStruct fs => (fs.getD i ("", .vString [])).2
  | _ => v

/-- Setting field `i` of a struct value. -/
def structSet (v : GoVal) (i : Nat) (x : GoVal) : GoVal :=
  match v with
  | .vStruct fs => .vStruct (fs.set i ((fs.getD i ("", x)).1, x))
  | _ => v

/-- Element count of a sequence value. -/
def seqLen (v : GoVal) : Nat :=
  match v with
  | .vSlice elems _ => elems.length
  | .vArray elems => elems.length
  | _ => 0

/-- `v.Index(i)` on a sequence value. -/
def seqGet (v : GoVal) (i : Nat) : GoVal :=
  match v with
  | .vSlice elems _ => elems.getD i (.vString [])
  | .vArray elems => elems.getD i (.vString [])
  | _ => v

/-- Setting element `i` of a sequence value. -/
def seqSet (v : GoVal) (i : Nat) (x : GoVal) : GoVal :=
  match v with
  | .vSlice elems cap => .vSlice (elems.set i x) cap
  | .vArray elems => .vArray (elems.set i x)
  | _ => v

mutual

/-- The source's `(*decodeState).value` (decode.go lines 159-217) over
the modelled destinations.  The destination is `none` when the Go code
passes an invalid `reflect.Value` (skip without storing); the result
carries the updated destination value and the returned error.  A Go
panic is modelled by `Except.error`; the fuel only bounds recursion depth
and loop counts (each level consumes input bytes, so `2*|data|+4` is
always enough). -/
def value : Nat → DState → Option (GoType × GoVal) →
    Except String (DState × Option GoVal × Option DErr)
  | 0, _, _ => .error "out of fuel"
  | fuel + 1, d, dest =>
    match d.opcode with
    | .scanBeginDictionary =>
      match dest with
      | some (t, v) =>
        match dictionary fuel d t v with
        | .error m => .error m
        | .ok (d, v, some e) => .ok (d, some v, some e)
        | .ok (d, v, none) => .ok (d.scanNext, some v, none)
      | none =>
        let d := d.skip
        .ok (d.scanNext, none, none)
    | .scanBeginList =>
      match dest with
      | some (t, v) =>
        match list fuel d t v with
        | .error m => .error m
        | .ok (d, v, some e) => .ok (d, some v, some e)
        | .ok (d, v, none) => .ok (d.scanNext, some v, none)
      | none =>
        let d := d.skip
        .ok (d.scanNext, none, none)
    | .scanBeginInteger =>
      let d := d.scanNext
      if d.opcode ≠ .scanInteger then .error phasePanicMsg
      else
        let start := d.off - 1
        let d := d.scanWhile .scanContinue
        match dest with
        | some (t, v) =>
          match integerStore d (d.sliceFrom start) t v false with
          | .error m => .error m
          | .ok (d, v, some e) => .ok (d, some v, some e)
          | .ok (d, v, none) => .ok (d.scanNext, some v, none)
        | none => .ok (d.scanNext, none, none)
    | .scanBeginString =>
      let d := d.scanWhile .scanContinue
      if d.opcode ≠ .scanString then .error phasePanicMsg
      else
        let start := d.off - 1
        let d := d.scanWhile .scanContinue
        match dest with
        | some (t, v) =>
          match stringStore d (d.sliceFrom start) t v false with
          | .error m => .error m
          | .ok (d, v, e) => .ok (d, some v, e)
        | none => .ok (d, none, none)
    | _ => .error phasePanicMsg

/-- The source's `(*decodeState).dictionary` over the modelled
destinations: only a flat struct binds; any other modelled shape records
a type error and the value is skipped. -/
def dictionary : Nat → DState → GoType → GoVal →
    Except String (DState × GoVal × Option DErr)
  | 0, _, _, _ => .error "out of fuel"
  | fuel + 1, d, t, v =>
    match t with
    | .tStruct sname fields =>
      let origStruct := d.ctxStruct
      let origField := d.ctxField
      let d := d.scanWhile .scanContinue
      dictLoop fuel d (.tStruct sname fields) fields origStruct origField v
    | _ =>
      let d := d.saveError (.typeErr "dictionary" t (d.off : Int) "" "")
      let d := d.skip
      .ok (d, v, none)

/-- The key/value loop of `dictionary` (decode.go lines 363-460). -/
def dictLoop : Nat → DState → GoType → List (String × GoType) →
    Option GoType → String → GoVal → Except String (DState × GoVal × Option DErr)
  | 0, _, _, _, _, _, _ => .error "out of fuel"
  | fuel + 1, d, t, fields, origStruct, origField, v =>
    if d.opcode = .scanEndDictionary then .ok (d, v, none)
    else if d.opcode ≠ .scanBeginString then .error phasePanicMsg
    else
      let d := d.scanWhile .scanContinue
      if d.opcode ≠ .scanString then .error phasePanicMsg
      else
        let start := d.off - 1
        let d := d.scanWhile .scanContinue
        let key := d.sliceFrom start
        match findField fields key with
        | some i =>
          let fname := (fields.getD i ("", .tString)).1
          let ftype := (fields.getD i ("", .tString)).2
          let subv := structGet v i
          let d := { d with ctxField := fname, ctxStruct := some t }
          match value fuel d (some (ftype, subv)) with
          | .error m => .error m
          | .ok (d, newv, some e) => .ok (d, structSet v i (newv.getD subv), some e)
          | .ok (d, newv, none) =>
            let v := structSet v i (newv.getD subv)
            if d.opcode = .scanEndDictionary then .ok (d, v, none)
            else
              let d := { d with ctxStruct := origStruct, ctxField := origField }
              dictLoop fuel d t fields origStruct origField v
        | none =>
          let d :=
            if d.disallowUnknownFields then d.saveError (.fmtErr "bencode: unknown field")
            else d
          match value fuel d none with
          | .error m => .error m
          | .ok (d, _, some e) => .ok (d, v, some e)
          | .ok (d, _, none) =>
            if d.opcode = .scanEndDictionary then .ok (d, v, none)
            else
              let d := { d with ctxStruct := origStruct, ctxField := origField }
              dictLoop fuel d t fields origStruct origField v

/-- The source's `(*decodeState).list` over the modelled destinations. -/
def list : Nat → DState → GoType → GoVal →
    Except String (DState × GoVal × Option DErr)
  | 0, _, _, _ => .error "out of fuel"
  | fuel + 1, d, t, v =>
    match t with
    | .tSlice elem =>
      let d := d.scanNext
      listLoop fuel d t elem v 0
    | .tArray _ elem =>
      let d := d.scanNext
      listLoop fuel d t elem v 0
    | _ =>
      let d := d.saveError (.typeErr "list" t (d.off : Int) "" "")
      let d := d.skip
      .ok (d, v, none)

/-- The element loop of `list` (decode.go lines 275-325): grow a slice
destination when the index reaches capacity, extend its length, store
the element in place; elements beyond a fixed-size destination are
decoded into an invalid destination (skipped).  After `scanEndList` the
slice is truncated to the element count (or reset to the empty slice on
zero elements) and an array's unfilled trailing slots are zeroed. -/
def listLoop : Nat → DState → GoType → GoType → GoVal → Nat →
    Except String (DState × GoVal × Option DErr)
  | 0, _, _, _, _, _ => .error "out of fuel"
  | fuel + 1, d, t, elem, v, i =>
    if d.opcode = .scanEndList then
      let v :=
        match t, v with
        | .tSlice _, .vSlice elems cap =>
          let v' := if i < elems.length then GoVal.vSlice (elems.take i) cap
                    else .vSlice elems cap
          if i = 0 then .vSlice [] 0 else v'
        | .tArray _ _, .vArray elems =>
          if i < elems.length then
            .vArray (elems.take i ++ List.replicate (elems.length - i) (zeroVal elem))
          else .vArray elems
        | _, _ => v
      .ok (d, v, none)
    else if d.opcode ≠ .scanBeginInteger ∧ d.opcode ≠ .scanBeginList ∧
        d.opcode ≠ .scanBeginDictionary ∧ d.opcode ≠ .scanBeginString then
      .error phasePanicMsg
    else
      let v :=
        match t, v with
        | .tSlice _, .vSlice elems cap =>
          let cap' := if i ≥ cap then growCap cap else cap
          let elems' :=
            if i ≥ elems.length then
              elems ++ List.replicate (i + 1 - elems.length) (zeroVal elem)
            else elems
          GoVal.vSlice elems' cap'
        | _, _ => v
      if i < seqLen v then
        match value fuel d (some (elem, seqGet v i)) with
        | .error m => .error m
        | .ok (d, newv, some e) => .ok (d, seqSet v i (newv.getD (seqGet v i)), some e)
        | .ok (d, newv, none) =>
          listLoop fuel d t elem (seqSet v i (newv.getD (seqGet v i))) (i + 1)
      else
        match value fuel d none with
        | .error m => .error m
        | .ok (d, _, some e) => .ok (d, v, some e)
        | .ok (d, _, none) => listLoop fuel d t elem v (i + 1)

end

/-- Destination argument of `Unmarshal`: nil interface, a non-pointer
value (of the named type), or a pointer to a value of a modelled type. -/
inductive Dest where
  | dNil
  | dNonPtr (typeName : String)
  | dPtr (t : GoType) (v : GoVal)

/-- The source's `(*decodeState).unmarshal`: reject a nil or non-pointer
destination, then reset the scanner, fetch the first opcode, and bind the
value; the call returns the first returned error or the first saved
error.  `indirect` on the single-level pointer destination dereferences
to the pointee. -/
def unmarshal (fuel : Nat) (d : DState) (dest : Dest) :
    Except String (DState × Option GoVal × Option DErr) :=
  match dest with
  | .dNil => .ok (d, none, some (.invalidUnmarshal none))
  | .dNonPtr tn => .ok (d, none, some (.invalidUnmarshal (some tn)))
  | .dPtr t v =>
    let d := { d with scan := d.scan.reset }
    let d := d.scanNext
    if d.scan.bytes = 0 then .ok (d, some v, some .ioEOF)
    else
      match value fuel d (some (t, v)) with
      | .error m => .error m
      | .ok (d, newv, some e) => .ok (d, newv, some (d.addErrorContext e))
      | .ok (d, newv, none) => .ok (d, newv, d.savedError)

/-- The source's exported `Unmarshal`: validate the whole input with the
decode state's scanner first (returning the syntax error on failure),
then `init` and `unmarshal`.  The scanner state after `checkValid` is
the run of the shared scanner over the data (its byte counter persists,
as in Go).  The result is the returned error and the final pointee. -/
def Unmarshal (data : List Nat) (dest : Dest) :
    Except String (Option DErr × Option GoVal) :=
  match checkValid data zeroScanner with
  | some e => .ok (some (.scanFail e), none)
  | none =>
    let d : DState :=
      { data := data, off := 0, opcode := .scanContinue,
        scan := runScan zeroScanner.reset data,
        ctxStruct := none, ctxField := "", savedError := none,
        disallowUnknownFields := false }
    match unmarshal (2 * data.length + 4) d dest with
    | .error m => .error m
    | .ok (_, v, e) => .ok (e, v)



/-- C2 counterexample: decoding the Bencode string `4:AAAA` into a byte
slice stores the three bytes of the base64 decoding of `AAAA`, not the
four body bytes verbatim; and decoding the empty string `0:` into a text
destination stores the single byte `:` rather than the empty body (the
slice taken for an empty string body starts at the length delimiter). -/
theorem C2_counterexample :
    Unmarshal (bytes "4:AAAA") (.dPtr (.tSlice .tUint8) (zeroVal (.tSlice .tUint8))) =
      .ok (none, some (.vSlice [.vUint8 0, .vUint8 0, .vUint8 0] 3)) ∧
    [GoVal.vUint8 0, .vUint8 0, .vUint8 0] ≠ (bytes "AAAA").map GoVal.vUint8 ∧
    Unmarshal (bytes "0:") (.dPtr .tString (zeroVal .tString)) =
      .ok (none, some (.vString (bytes ":"))) := by
  refine ⟨rfl, ?_, rfl⟩
  intro h
  have := congrArg List.length h
  simp [bytes] at this

/-- C2 amended: for a non-empty string item, a text destination receives
the bytes verbatim; a byte-slice destination receives the standard
base64 decoding of the item when it decodes, and otherwise a
corrupt-input error is recorded and nothing is stored.  (For an empty
string body the byte slice handed to `stringStore` is never empty: it is
the `:` delimiter, see the counterexample.) -/
theorem C2_string_store_amended (d : DState) (item : List Nat) (v : GoVal)
    (fq : Bool) (hne : item ≠ []) :
    stringStore d item .tString v fq = .ok (d, .vString item, none) ∧
    ((∃ bs, goBase64Decode item = some bs ∧
        stringStore d item (.tSlice .tUint8) v fq =
          .ok (d, .vSlice (bs.map .vUint8) (b64DecodedLen item.length), none)) ∨
     (goBase64Decode item = none ∧
        stringStore d item (.tSlice .tUint8) v fq =
          .ok (d.saveError .base64Err, v, none))) := by
  constructor
  · unfold stringStore
    rw [if_neg hne]
  · unfold stringStore
    rw [if_neg hne]
    cases hb : goBase64Decode item with
    | none => exact Or.inr ⟨rfl, rfl⟩
    | some bs => exact Or.inl ⟨bs, rfl, rfl⟩

theorem C2_string_store_amended_witness :
    stringStore ⟨[], 0, .scanContinue, zeroScanner, none, "", none, false⟩
      (bytes "a") .tString (.vString []) false =
      .ok (⟨[], 0, .scanContinue, zeroScanner, none, "", none, false⟩,
        .vString (bytes "a"), none) :=
  (C2_string_store_amended _ (bytes "a") (.vString []) false (by decide)).1

/-- C5: only the first error of a decode session is recorded (saving a
second error leaves the first untouched); a type mismatch in
`integerStore` returns no error — the value's bytes were already
consumed by `value`, the mismatch is merely recorded, and decoding
continues; end to end, decoding `d1:ai5e1:b1:xe` into a struct with two
string fields records the number-into-string mismatch at field `a`,
still populates the sibling field `b`, and returns that first recorded
error. -/
theorem C5_first_error_wins :
    (∀ (d : DState) (e e' : DErr), d.savedError = some e →
       (d.saveError e').savedError = some e) ∧
    (∀ (d : DState) (item : List Nat) (v : GoVal),
       '0'.toNat ≤ item.getD 0 0 → item.getD 0 0 ≤ '9'.toNat → item ≠ [] →
       integerStore d item .tString v false =
         .ok (d.saveError (.typeErr "number" .tString d.readIndex "" ""), v, none)) ∧
    Unmarshal (bytes "d1:ai5e1:b1:xe")
        (.dPtr (.tStruct "S" [("a", .tString), ("b", .tString)])
          (zeroVal (.tStruct "S" [("a", .tString), ("b", .tString)]))) =
      .ok (some (.typeErr "number" .tString 6 "S" "a"),
           some (.vStruct [("a", .vString []), ("b", .vString (bytes "x"))])) := by
  refine ⟨?_, ?_, rfl⟩
  · intro d e e' h
    unfold DState.saveError
    rw [if_neg (by simp [h])]
    exact h
  · intro d item v h0 h9 hne
    unfold integerStore
    rw [if_neg hne]
    rw [if_neg (by
      have h48 : '0'.toNat = 48 := by decide
      have h57 : '9'.toNat = 57 := by decide
      omega)]
    rfl

theorem C5_first_error_wins_witness :
    ((⟨[], 0, .scanContinue, zeroScanner, none, "", some (.fmtErr "first"), false⟩ :
        DState).saveError (.fmtErr "second")).savedError = some (.fmtErr "first") :=
  C5_first_error_wins.1 _ (.fmtErr "first") (.fmtErr "second") rfl

/-- C6 counterexample: with a nil destination and the invalid input `x`,
the one-shot decode returns the scanner's syntax error (at offset 1, so
the input byte was scanned) rather than an invalid-destination error —
`Unmarshal` validates the whole input before looking at the
destination. -/
theorem C6_counterexample :
    Unmarshal (bytes "x") .dNil =
      .ok (some (.scanFail (.synErr "invalid character 'x' looking for value" 1)),
           none) := by
  rfl

/-- C6 amended: for a nil or non-pointer destination, `Unmarshal` first
validates (scans) the entire input; a syntax error is returned in
preference to the invalid-destination error; only when validation
succeeds is the invalid-destination error reported, before any value is
bound. -/
theorem C6_invalid_dest_amended (data : List Nat) (dest : Dest)
    (h : dest = .dNil ∨ ∃ tn, dest = .dNonPtr tn) :
    Unmarshal data dest =
      .ok (some (match checkValid data zeroScanner with
        | some e => DErr.scanFail e
        | none =>
          match dest with
          | .dNil => DErr.invalidUnmarshal none
          | .dNonPtr tn => DErr.invalidUnmarshal (some tn)
          | .dPtr _ _ => DErr.invalidUnmarshal none), none) := by
  rcases h with rfl | ⟨tn, rfl⟩ <;>
    · unfold Unmarshal
      cases hc : checkValid data zeroScanner <;> simp [unmarshal]

theorem C6_invalid_dest_amended_witness :
    Unmarshal (bytes "de") .dNil = .ok (some (.invalidUnmarshal none), none) :=
  (C6_invalid_dest_amended (bytes "de") .dNil (Or.inl rfl)).trans rfl

end Bencode

namespace Bencode

/-- The `Decoder` struct of `stream.go`.  The byte source is modelled as
a queue of non-empty chunks: each `Read` hands out the next chunk (cut to
the free buffer space), and an empty queue reads as `io.EOF`.  `buf` is
the buffered bytes with capacity `bufCap`; `scanp` counts consumed bytes
of `buf`; `scanned` counts bytes discarded before `buf`. -/
structure Decoder where
  r : List (List Nat)
  buf : List Nat
  bufCap : Nat
  d : DState
  scanp : Nat
  scanned : Int
  scan : Scanner
  err : Option DErr
  tokenState : Nat

/-- The source's `NewDecoder`. -/
def NewDecoder (r : List (List Nat)) : Decoder :=
  { r := r, buf := [], bufCap := 0,
    d := { data := [], off := 0, opcode := .scanContinue, scan := zeroScanner,
           ctxStruct := none, ctxField := "", savedError := none,
           disallowUnknownFields := false },
    scanp := 0, scanned := 0, scan := zeroScanner, err := none, tokenState := 0 }

/-- One `Read` of the modelled source into `k` free bytes. -/
def readChunk (r : List (List Nat)) (k : Nat) :
    List Nat × List (List Nat) × Option DErr :=
  match r with
  | [] => ([], [], some .ioEOF)
  | chunk :: rest =>
    if chunk.length ≤ k then (chunk, rest, none)
    else (chunk.take k, chunk.drop k :: rest, none)

/-- The source's `(*Decoder).refill`: compact away the consumed prefix,
grow the buffer when less than 512 free bytes remain (`2*cap + 512`),
then read from the source into the free space. -/
def refill (dec : Decoder) : Decoder × Option DErr :=
  let dec :=
    if dec.scanp > 0 then
      { dec with
        scanned := dec.scanned + (dec.scanp : Int)
        buf := dec.buf.drop dec.scanp
        scanp := 0 }
    else dec
  let dec :=
    if dec.bufCap - dec.buf.length < 512 then
      { dec with bufCap := 2 * dec.bufCap + 512 }
    else dec
  let rr := readChunk dec.r (dec.bufCap - dec.buf.length)
  ({ dec with buf := dec.buf ++ rr.1, r := rr.2.1 }, rr.2.2)

/-- Outcome of the inner byte loop of `readValue`. -/
inductive RVStep where
  | brk (scanp : Nat)
  | errRet (e : DErr)
  | exhausted

/-- The inner loop of `readValue` (stream.go lines 58-77): step the
scanner over the buffered bytes from `scanp`; `scanEnd` breaks without
consuming the byte, a scan error latches `dec.err` and returns it, and
an empty parse stack after a byte breaks past it.  One byte per
iteration, so fuel `|buf|+1` is exact. -/
def rvInner : Nat → Decoder → Nat → Decoder × RVStep
  | 0, dec, _ => (dec, .exhausted)
  | fuel + 1, dec, scanp =>
    if scanp < dec.buf.length then
      let c := dec.buf.getD scanp 0
      let s := { dec.scan with bytes := dec.scan.bytes + 1 }
      let r := scanStep s c
      let dec := { dec with scan := r.1 }
      match r.2 with
      | .scanEnd => (dec, .brk scanp)
      | .scanError =>
        let e : DErr :=
          match dec.scan.err with
          | some se => .scanFail se
          | none => .fmtErr "nil scanner error"
        ({ dec with err := some e }, .errRet e)
      | _ =>
        if dec.scan.parseState.length = 0 then (dec, .brk (scanp + 1))
        else rvInner fuel dec (scanp + 1)
    else (dec, .exhausted)

/-- The outer loop of `readValue` (stream.go lines 56-94): run the inner
loop; on exhaustion handle the carried read error (`io.EOF` with no byte
scanned is a clean end, otherwise it latches as unexpected-EOF or the
read error itself), else refill and continue.  The fuel bounds refill
rounds; `|r|+2` rounds reach the source's end. -/
def rvOuter : Nat → Decoder → Nat → Option DErr → Decoder × Except DErr Nat
  | 0, dec, _, _ => (dec, .error (.fmtErr "readValue out of fuel"))
  | fuel + 1, dec, scanp, errc =>
    match rvInner (dec.buf.length + 1) dec scanp with
    | (dec, .brk scanp') => (dec, .ok scanp')
    | (dec, .errRet e) => (dec, .error e)
    | (dec, .exhausted) =>
      let scanp := dec.buf.length
      match errc with
      | some e =>
        match e with
        | .ioEOF =>
          if dec.scan.bytes = 0 then (dec, .ok scanp)
          else ({ dec with err := some .unexpectedEOF }, .error .unexpectedEOF)
        | _ => ({ dec with err := some e }, .error e)
      | none =>
        let n := scanp - dec.scanp
        let rr := refill dec
        rvOuter fuel rr.1 (rr.1.scanp + n) rr.2

/-- The source's `(*Decoder).readValue`: reset the private scanner, scan
one complete top-level value (refilling as needed), and return the
number of unconsumed buffered bytes it spans. -/
def readValue (dec : Decoder) : Decoder × Except DErr Nat :=
  let dec := { dec with scan := dec.scan.reset }
  match rvOuter (dec.r.length + 2) dec dec.scanp none with
  | (dec, .ok scanp') => (dec, .ok (scanp' - dec.scanp))
  | (dec, .error e) => (dec, .error e)

/-- The source's `(*Decoder).Decode`: a latched `dec.err` is returned
immediately; otherwise locate one value with `readValue` (errors
propagate), hand the consumed span to the embedded decode state, advance
the cursor, and unmarshal (binding errors are returned but never latch
`dec.err`).  `tokenPrepareForDecode` is a no-op and `tokenValueAllowed`
only accepts the (never-changing) top-level token state; `tokenValueEnd`
is a no-op. -/
def Decode (dec : Decoder) (dest : Dest) :
    Except String (Decoder × Option DErr × Option GoVal) :=
  match dec.err with
  | some e => .ok (dec, some e, none)
  | none =>
    if dec.tokenState ≠ 0 then
      .ok (dec, some (.scanFail (.synErr "not at beginning of value"
        (dec.scanned + (dec.scanp : Int)).toNat)), none)
    else
      match readValue dec with
      | (dec, .error e) => .ok (dec, some e, none)
      | (dec, .ok n) =>
        let d := dec.d.init ((dec.buf.drop dec.scanp).take n)
        let dec := { dec with d := d, scanp := dec.scanp + n }
        match unmarshal (2 * n + 4) dec.d dest with
        | .error m => .error m
        | .ok (d', v, e) => .ok ({ dec with d := d' }, e, v)

end Bencode

namespace Bencode

theorem rvInner_errRet_err : ∀ (fuel : Nat) (dec : Decoder) (scanp : Nat)
    (dec' : Decoder) (e : DErr),
    rvInner fuel dec scanp = (dec', .errRet e) → dec'.err = some e := by
  intro fuel
  induction fuel with
  | zero => intro dec scanp dec' e h; simp [rvInner] at h
  | succ fuel ih =>
    intro dec scanp dec' e h
    simp only [rvInner] at h
    split at h
    · split at h <;>
        first
          | (injection h with ha hb; exact RVStep.noConfusion hb)
          | (injection h with ha hb
             injection hb with hb
             subst hb
             exact (congrArg Decoder.err ha).symm.trans rfl)
          | (split at h <;>
               first
                 | (injection h with ha hb; exact RVStep.noConfusion hb)
                 | exact ih _ _ _ _ h)
    · injection h with ha hb; injection hb

set_option maxHeartbeats 3200000 in
/-- C8 counterexample: over the stream `i1ei2e`, a first `Decode` with a
nil destination fails with the invalid-destination error, yet the
decoder is not poisoned: `dec.err` stays unset, the failing call has
consumed the value's bytes (`scanp` moved to 3), and a second `Decode`
on the resulting decoder state does not return the earlier error but
succeeds, producing the next value `2`. -/
theorem C8_counterexample :
    (Decode (NewDecoder [bytes "i1ei2e"]) .dNil =
      .ok
        ({ r := [], buf := bytes "i1ei2e", bufCap := 512,
           d := { data := bytes "i1e", off := 0, opcode := .scanContinue,
                  scan := zeroScanner, ctxStruct := none, ctxField := "",
                  savedError := none, disallowUnknownFields := false },
           scanp := 3, scanned := 0,
           scan := { step := .stateEndTop, parseState := [], endTop := true,
                     err := none, bytes := 3, string := 0, digits := [] },
           err := none, tokenState := 0 },
         some (.invalidUnmarshal none), none)) ∧
    (Decode
        { r := [], buf := bytes "i1ei2e", bufCap := 512,
          d := { data := bytes "i1e", off := 0, opcode := .scanContinue,
                 scan := zeroScanner, ctxStruct := none, ctxField := "",
                 savedError := none, disallowUnknownFields := false },
          scanp := 3, scanned := 0,
          scan := { step := .stateEndTop, parseState := [], endTop := true,
                    err := none, bytes := 3, string := 0, digits := [] },
          err := none, tokenState := 0 }
        (.dPtr .tInt (.vInt 0))).map (fun r => (r.1.err, r.2.1, r.2.2)) =
      .ok (none, none, some (.vInt 2)) :=
  ⟨rfl, rfl⟩

/-- C8 amended: the decoder is poisoned only by errors detected while
locating a value (scanner syntax errors, unexpected end of input, read
errors): a latched `dec.err` is returned immediately by every later call
with the decoder untouched, and every error return of the value-locating
loop latches `dec.err` with that same error.  Binding errors
(invalid destination, type mismatch) are returned to the caller but do
not poison: after a successful `readValue` the latch is unchanged, even
though the value's bytes have been consumed. -/
theorem C8_poisoning_amended :
    (∀ (dec : Decoder) (dest : Dest) (e : DErr), dec.err = some e →
       Decode dec dest = .ok (dec, some e, none)) ∧
    (∀ (dec : Decoder) (dest : Dest) (dec' : Decoder) (e : DErr),
       dec.err = none → dec.tokenState = 0 → readValue dec = (dec', .error e) →
       Decode dec dest = .ok (dec', some e, none)) ∧
    (∀ (fuel : Nat) (dec : Decoder) (scanp : Nat) (ec : Option DErr)
       (dec' : Decoder) (e : DErr),
       rvOuter fuel dec scanp ec = (dec', .error e) →
       e ≠ .fmtErr "readValue out of fuel" → dec'.err = some e) ∧
    (∀ (dec : Decoder) (dest : Dest) (dec' : Decoder) (n : Nat)
       (r : Decoder × Option DErr × Option GoVal),
       dec.err = none → dec.tokenState = 0 → readValue dec = (dec', .ok n) →
       Decode dec dest = .ok r → r.1.err = dec'.err) := by
  refine ⟨?_, ?_, ?_, ?_⟩
  · intro dec dest e h
    unfold Decode
    rw [h]
  · intro dec dest dec' e h1 h2 h3
    unfold Decode
    rw [h1]
    dsimp only
    rw [if_neg (by simp [h2]), h3]
  · intro fuel
    induction fuel with
    | zero =>
      intro dec scanp ec dec' e h hne
      simp only [rvOuter] at h
      injection h with ha hb
      injection hb with hb
      exact absurd hb.symm hne
    | succ fuel ih =>
      intro dec scanp ec dec' e h hne
      simp only [rvOuter] at h
      split at h
      next dec1 scanp1 heq =>
        injection h with ha hb
        injection hb
      next dec1 e1 heq =>
        injection h with ha hb
        injection hb with hb
        subst ha
        subst hb
        exact rvInner_errRet_err _ _ _ _ _ heq
      next dec1 heq =>
        split at h
        · split at h <;>
            first
              | (split_ifs at h with hb0
                 · injection h with ha hb; injection hb
                 · injection h with ha hb
                   injection hb with hb
                   subst ha
                   simp [← hb])
              | (injection h with ha hb
                 injection hb with hb
                 subst ha
                 simp [← hb])
        · exact ih _ _ _ _ _ h hne
  · intro dec dest dec' n r h1 h2 h3 h4
    unfold Decode at h4
    rw [h1] at h4
    dsimp only at h4
    rw [if_neg (by simp [h2]), h3] at h4
    dsimp only at h4
    rcases hu : unmarshal (2 * n + 4)
        (dec'.d.init ((dec'.buf.drop dec'.scanp).take n)) dest with _ | ⟨d', v, e⟩
    · rw [hu] at h4
      injection h4
    · rw [hu] at h4
      dsimp only at h4
      injection h4 with h4
      rw [← h4]

theorem C8_poisoning_amended_witness :
    Decode { NewDecoder [] with err := some .ioEOF } .dNil =
      .ok ({ NewDecoder [] with err := some .ioEOF }, some .ioEOF, none) :=
  C8_poisoning_amended.1 _ .dNil .ioEOF rfl

end Bencode
